import Mathlib

/-!
# Verification of the city-route-optimizer routing core

Shallow embedding of the repository's routing engine:

* `src/services/dijkstra.ts` — binary min-heap, Overpass network cache,
  graph construction, A* search (`computeDijkstraRoute`);
* `src/services/routing.ts` — OSRM adapter (`fetchOSRMRoute`), local route
  normalization (`fetchDijkstraRoute`), hybrid dispatch (`fetchRoute`).

Modelling conventions:

* Coordinates and all numeric quantities are `ℚ` (the TypeScript code uses
  IEEE doubles; none of the verified properties depend on rounding of float
  arithmetic, only on ordering, equality and field arithmetic).
* The two transcendental distance functions (`haversineDistance`,
  `fastApproxDistance`) are taken as explicit function parameters
  (`hav`, `fastD`) of the embedded operations: their bodies are pure trig
  whose values never influence control flow beyond ordering comparisons,
  so every verified property is stated for an arbitrary distance function
  and in particular holds for the float functions of the source.
* A JavaScript `Map` is embedded as an association list in insertion order
  (`mapSet` overwrites in place, `mapGet` finds the unique binding), which
  matches `Map`'s documented iteration-order semantics.
* `async`/`throw` are embedded with `Except Unit`; the external collaborators
  (Overpass map-data provider, OSRM routing provider) are inputs: the
  provider is a function from the requested bounding box to either an error
  (network failure / non-ok status) or the element list, and the OSRM
  response is either an error or a parsed response value.
* The two `while` loops of the A* search have no a-priori termination bound
  with arbitrary rational edge weights, so they take a fuel parameter; fuel
  exhaustion is a distinguished outcome (`none` at the outer `Option`) that
  never occurs in the real program and is assumed away by hypotheses where
  needed.
-/

namespace CityRoute

/-- A latitude/longitude pair in decimal degrees (`Coordinate` in
`routing.ts`). -/
structure Coordinate where
  lat : ℚ
  lng : ℚ
deriving DecidableEq, Repr

/-- JavaScript `Map.get`: the value bound to `k`, if any. -/
def mapGet {κ α : Type} [DecidableEq κ] : List (κ × α) → κ → Option α
  | [], _ => none
  | (k', v) :: rest, k => if k' = k then some v else mapGet rest k

/-- JavaScript `Map.set`: overwrite the binding of `k` in place if present
(keeping insertion order), otherwise append a new binding. -/
def mapSet {κ α : Type} [DecidableEq κ] : List (κ × α) → κ → α → List (κ × α)
  | [], k, v => [(k, v)]
  | (k', v') :: rest, k, v =>
      if k' = k then (k, v) :: rest else (k', v') :: mapSet rest k v

/-- `Number.prototype.toFixed(4)` applied to a rational, modelled as the
pair (sign of the value, magnitude rounded to nearest in units of 10⁻⁴,
ties away from zero, per the ECMAScript `toFixed` algorithm).  The pair
determines the produced digit string injectively, so string equality of the
source's keys is equality of these pairs. -/
def toFixed4 (x : ℚ) : Bool × ℕ :=
  (decide (x < 0), (⌊|x| * 10000 + 1 / 2⌋).toNat)

/-- The padded bounding box of `fetchRoadNetwork` (`pad = 0.015`). -/
structure BBox where
  minLat : ℚ
  minLon : ℚ
  maxLat : ℚ
  maxLon : ℚ
deriving DecidableEq, Repr

/-- `const pad = 0.015` in `fetchRoadNetwork`. -/
def pad : ℚ := 15 / 1000

/-- The padded box computed by `fetchRoadNetwork` from the two endpoints. -/
def routeBBox (start stop : Coordinate) : BBox :=
  { minLat := min start.lat stop.lat - pad
    maxLat := max start.lat stop.lat + pad
    minLon := min start.lng stop.lng - pad
    maxLon := max start.lng stop.lng + pad }

/-- The canonical cache-key type: the four bounds, each `toFixed(4)`. -/
abbrev BKey : Type := (Bool × ℕ) × (Bool × ℕ) × (Bool × ℕ) × (Bool × ℕ)

/-- `bboxKey` of `dijkstra.ts`: the four bounds rounded to 4 decimals (the
source joins them into a string; the string is determined injectively by
this tuple). -/
def bboxKey (b : BBox) : BKey :=
  (toFixed4 b.minLat, toFixed4 b.minLon, toFixed4 b.maxLat, toFixed4 b.maxLon)

/-- A directed edge record `{ to, weight }` of the adjacency list (`to` is
a Lean keyword, hence the field name `dest`). -/
structure EdgeTo where
  dest : ℤ
  weight : ℚ
deriving DecidableEq, Repr

/-- `GraphData` of `dijkstra.ts`: node-id → coordinate table plus
node-id → outgoing-edge adjacency list. -/
structure GraphData where
  nodes : List (ℤ × Coordinate)
  graph : List (ℤ × List EdgeTo)
deriving DecidableEq, Repr

/-- A raw Overpass element: either a point (`type: 'node'`) or a way
(`type: 'way'`) carrying its ordered node-id list and the value of its
optional `oneway` tag. -/
inductive OsmElement
  | node (id : ℤ) (lat lon : ℚ)
  | way (nodeIds : List ℤ) (onewayTag : Option String)
deriving DecidableEq, Repr

/-- A parsed way, as collected by the single parse pass
(`oneway := el.tags?.oneway === 'yes'`). -/
structure Way where
  nodeIds : List ℤ
  oneway : Bool
deriving DecidableEq, Repr

/-- First parse pass, node elements: `nodes.set(el.id, {lat, lng})`. -/
def parseNodes (elements : List OsmElement) : List (ℤ × Coordinate) :=
  elements.foldl
    (fun m el =>
      match el with
      | .node i la lo => mapSet m i ⟨la, lo⟩
      | .way _ _ => m) []

/-- First parse pass, way elements:
`ways.push({nodes: el.nodes, oneway: el.tags?.oneway === 'yes'})`. -/
def parseWays (elements : List OsmElement) : List Way :=
  elements.foldl
    (fun ws el =>
      match el with
      | .node _ _ _ => ws
      | .way ns t => ws ++ [⟨ns, decide (t = some "yes")⟩]) []

/-- One iteration of the adjacency-building inner loop: the consecutive pair
`(a, b)` of a way contributes `a → b` (and `b → a` unless one-way) weighted
by the haversine distance of the two coordinates; the pair is skipped when
either coordinate is missing. -/
def addSegment (hav : Coordinate → Coordinate → ℚ) (nodes : List (ℤ × Coordinate))
    (oneway : Bool) (graph : List (ℤ × List EdgeTo)) (a b : ℤ) :
    List (ℤ × List EdgeTo) :=
  match mapGet nodes a, mapGet nodes b with
  | some ca, some cb =>
      let d := hav ca cb
      let g1 := mapSet graph a ((mapGet graph a).getD [] ++ [⟨b, d⟩])
      if oneway then g1
      else mapSet g1 b ((mapGet g1 b).getD [] ++ [⟨a, d⟩])
  | _, _ => graph

/-- The consecutive node-id pairs of a way
(`for i in 0 .. way.nodes.length-2: (way.nodes[i], way.nodes[i+1])`). -/
def consecutivePairs (ns : List ℤ) : List (ℤ × ℤ) := ns.zip ns.tail

/-- The adjacency-building loop body for one way. -/
def addWayEdges (hav : Coordinate → Coordinate → ℚ) (nodes : List (ℤ × Coordinate))
    (graph : List (ℤ × List EdgeTo)) (w : Way) : List (ℤ × List EdgeTo) :=
  (consecutivePairs w.nodeIds).foldl
    (fun g p => addSegment hav nodes w.oneway g p.1 p.2) graph

/-- Graph construction of `fetchRoadNetwork` (dijkstra.ts 114-143): parse
all elements in one pass, then build the adjacency list way by way. -/
def buildGraphData (hav : Coordinate → Coordinate → ℚ)
    (elements : List OsmElement) : GraphData :=
  let nodes := parseNodes elements
  let graph := (parseWays elements).foldl (addWayEdges hav nodes) []
  ⟨nodes, graph⟩

/-- The outgoing-edge list stored for node `a` (`graph.get(a) ?? []`). -/
def graphAtL (g : List (ℤ × List EdgeTo)) (a : ℤ) : List EdgeTo :=
  (mapGet g a).getD []

/-- The in-module `networkCache` map, keyed by the canonical bbox key. -/
abbrev Cache : Type := List (BKey × GraphData)

/-- `fetchRoadNetwork` (dijkstra.ts 89-146).  The Overpass request is the
`provider` input (error = network failure or non-ok HTTP status, which the
source turns into a thrown exception).  Returns the graph, the cache after
the call, and whether a network fetch was performed (`false` = cache hit). -/
def fetchRoadNetwork (hav : Coordinate → Coordinate → ℚ)
    (provider : BBox → Except Unit (List OsmElement)) (cache : Cache)
    (start stop : Coordinate) : Except Unit (GraphData × Cache × Bool) :=
  let box := routeBBox start stop
  let key := bboxKey box
  match mapGet cache key with
  | some gd => .ok (gd, cache, false)
  | none =>
      match provider box with
      | .error e => .error e
      | .ok elements =>
          let result := buildGraphData hav elements
          .ok (result, mapSet cache key result, true)

/-- Constant-zero distance function, used as a concrete instantiation of
the abstract haversine parameter in witnesses. -/
def havZero : Coordinate → Coordinate → ℚ := fun _ _ => 0

/-- A provider returning an empty element set, for witnesses. -/
def providerEmpty : BBox → Except Unit (List OsmElement) := fun _ => .ok []

/-- Coordinate (0, 0), for witnesses. -/
def origin : Coordinate := ⟨0, 0⟩

/-- Cache contents after one `fetchRoadNetwork` call at the origin. -/
def cacheAfterOrigin : Cache :=
  mapSet [] (bboxKey (routeBBox origin origin)) (buildGraphData havZero [])

/-- Request point of the first query in the C3 counterexample
(latitude 0.00004). -/
def cexStart1 : Coordinate := ⟨4 / 100000, 0⟩

/-- Request point of the second query in the C3 counterexample
(latitude 0.00012): every padded bound moves by 0.00008 < 10⁻⁴. -/
def cexStart2 : Coordinate := ⟨12 / 100000, 0⟩

/-- The edge `x` is stored at key `k` by processing consecutive pair
`(p, q)` of a way with one-way flag `ow` (both coordinates present):
forward `p → q` always, backward `q → p` unless one-way. -/
def segContrib (hav : Coordinate → Coordinate → ℚ) (nodes : List (ℤ × Coordinate))
    (ow : Bool) (p q : ℤ) (x : EdgeTo) (k : ℤ) : Prop :=
  ∃ cp cq, mapGet nodes p = some cp ∧ mapGet nodes q = some cq ∧
    ((k = p ∧ x = ⟨q, hav cp cq⟩) ∨ (ow = false ∧ k = q ∧ x = ⟨p, hav cp cq⟩))

/-- The edge `x` is stored at key `k` by processing way `w`. -/
def wayContrib (hav : Coordinate → Coordinate → ℚ) (nodes : List (ℤ × Coordinate))
    (w : Way) (x : EdgeTo) (k : ℤ) : Prop :=
  ∃ p q, (p, q) ∈ consecutivePairs w.nodeIds ∧ segContrib hav nodes w.oneway p q x k

/-- Well-formedness of a (raw) adjacency list relative to a node table:
every stored bucket is nonempty and every endpoint is in the table. -/
def WFGraph (nodes : List (ℤ × Coordinate)) (g : List (ℤ × List EdgeTo)) : Prop :=
  ∀ k es, (k, es) ∈ g →
    es ≠ [] ∧ (mapGet nodes k).isSome ∧ ∀ e ∈ es, (mapGet nodes e.dest).isSome

/-- A two-node, one-way-free element set used by witnesses: nodes 1 and 2
joined by a single bidirectional way. -/
def wfElems : List OsmElement :=
  [.node 1 0 0, .node 2 0 1, .way [1, 2] none]

/-- An entry `{ id, f }` of the `BinaryMinHeap` backing array. -/
structure HeapEntry where
  id : ℤ
  f : ℚ
deriving DecidableEq, Repr

/-- Read `this.heap[i]`; the source's index discipline keeps all reads in
range, so the default entry is never observed. -/
def hget (l : List HeapEntry) (i : ℕ) : HeapEntry := l.getD i ⟨0, 0⟩

/-- The destructuring swap
`[this.heap[i], this.heap[j]] = [this.heap[j], this.heap[i]]`. -/
def hswap (l : List HeapEntry) (i j : ℕ) : List HeapEntry :=
  (l.set i (hget l j)).set j (hget l i)

/-- `_bubbleUp(i)` (dijkstra.ts 51-58): stop at the root or when
`heap[i].f >= heap[parent].f` with `parent = (i - 1) >> 1`; otherwise swap
with the parent and continue from there. -/
def bubbleUp (l : List HeapEntry) : ℕ → List HeapEntry
  | 0 => l
  | i + 1 =>
      if (hget l (i + 1)).f ≥ (hget l (i / 2)).f then l
      else bubbleUp (hswap l (i + 1) (i / 2)) (i / 2)
termination_by i => i
decreasing_by omega

/-- `push(id, f)` (dijkstra.ts 35-38): append, then sift up from the last
index. -/
def heapPush (l : List HeapEntry) (id : ℤ) (f : ℚ) : List HeapEntry :=
  bubbleUp (l ++ [⟨id, f⟩]) l.length

/-- The index selected by one iteration of `_sinkDown`'s loop body: the
smaller of `heap[i]` and its at most two in-range children. -/
def smallestChild (l : List HeapEntry) (i : ℕ) : ℕ :=
  let s1 := if 2 * i + 1 < l.length ∧ (hget l (2 * i + 1)).f < (hget l i).f
    then 2 * i + 1 else i
  if 2 * i + 2 < l.length ∧ (hget l (2 * i + 2)).f < (hget l s1).f
    then 2 * i + 2 else s1

/-- `_sinkDown(i)` (dijkstra.ts 60-72): repeatedly swap with the smaller
child until the heap property holds or a leaf is reached. -/
def sinkDown (l : List HeapEntry) (i : ℕ) : List HeapEntry :=
  if h : smallestChild l i = i then l
  else sinkDown (hswap l i (smallestChild l i)) (smallestChild l i)
termination_by l.length - i
decreasing_by
  have hlen : (hswap l i (smallestChild l i)).length = l.length := by
    simp [hswap]
  have hgt : i < smallestChild l i ∧ smallestChild l i < l.length := by
    by_cases h2 : 2 * i + 2 < l.length ∧ (hget l (2 * i + 2)).f
        < (hget l (if 2 * i + 1 < l.length ∧ (hget l (2 * i + 1)).f < (hget l i).f
            then 2 * i + 1 else i)).f
    · have hv : smallestChild l i = 2 * i + 2 := by
        unfold smallestChild
        rw [if_pos h2]
      rw [hv]
      exact ⟨by omega, h2.1⟩
    · by_cases h1 : 2 * i + 1 < l.length ∧ (hget l (2 * i + 1)).f < (hget l i).f
      · have hv : smallestChild l i = 2 * i + 1 := by
          unfold smallestChild
          rw [if_neg h2, if_pos h1]
        rw [hv]
        exact ⟨by omega, h1.1⟩
      · exfalso
        apply h
        unfold smallestChild
        rw [if_neg h2, if_neg h1]
  rw [hlen]
  omega

/-- `pop()` (dijkstra.ts 40-49): empty signals `undefined`; otherwise
capture the root, move the last element to the root position, shrink, and
sift down when entries remain. -/
def heapPop (l : List HeapEntry) : Option HeapEntry × List HeapEntry :=
  match l with
  | [] => (none, [])
  | _ :: _ =>
      let top := hget l 0
      let last := hget l (l.length - 1)
      let l' := l.dropLast
      if 0 < l'.length then (some top, sinkDown (l'.set 0 last) 0)
      else (some top, l')

/-- Push a list of `(id, priority)` pairs in order, starting from the
empty heap (an arbitrary push sequence). -/
def pushAll (ops : List (ℤ × ℚ)) : List HeapEntry :=
  ops.foldl (fun l op => heapPush l op.1 op.2) []

/-- Drain the heap by repeated `pop()` with explicit fuel. -/
def popAllFuel : ℕ → List HeapEntry → List HeapEntry
  | 0, _ => []
  | fuel + 1, l =>
      match heapPop l with
      | (none, _) => []
      | (some x, l') => x :: popAllFuel fuel l'

/-- Drain the heap by repeated `pop()`; `l.length` pops always suffice. -/
def popAll (l : List HeapEntry) : List HeapEntry := popAllFuel l.length l

/-- The binary-min-heap shape invariant: every non-root entry is at least
its parent. -/
def IsMinHeap (l : List HeapEntry) : Prop :=
  ∀ i, 0 < i → i < l.length → (hget l ((i - 1) / 2)).f ≤ (hget l i).f

/-- Heap shape except along the edge from `i` up to its parent, plus the
grandparent bound for the children of `i` (the `_bubbleUp` loop
invariant). -/
def HeapExceptUp (l : List HeapEntry) (i : ℕ) : Prop :=
  (∀ j, 0 < j → j < l.length → j ≠ i → (hget l ((j - 1) / 2)).f ≤ (hget l j).f)
    ∧ ∀ j, j < l.length → (j - 1) / 2 = i → 0 < i →
        (hget l ((i - 1) / 2)).f ≤ (hget l j).f

/-- Heap shape except on the edges from `i` down to its children, plus the
grandparent bound for the children of `i` (the `_sinkDown` loop
invariant). -/
def HeapExceptDown (l : List HeapEntry) (i : ℕ) : Prop :=
  (∀ j, 0 < j → j < l.length → (j - 1) / 2 ≠ i →
      (hget l ((j - 1) / 2)).f ≤ (hget l j).f)
    ∧ ∀ j, j < l.length → (j - 1) / 2 = i → 0 < i →
        (hget l ((i - 1) / 2)).f ≤ (hget l j).f

/-- The per-search mutable state of the A* loop: best-known costs, the
predecessor table, and the priority queue. -/
structure AState where
  gScore : List (ℤ × ℚ)
  prev : List (ℤ × ℤ)
  heap : List HeapEntry

/-- One relaxation of an outgoing edge (body of the neighbor loop,
dijkstra.ts 198-206).  `currG = none` models a missing `gScore` entry
(`?? Infinity`): `Infinity + w` never strictly improves a neighbor, so no
update happens.  A missing `gScore` entry of the neighbor is `Infinity`,
so any tentative cost strictly improves it.  The pushed priority uses the
neighbor's coordinate; for graphs built by `fetchRoadNetwork` the lookup
cannot miss (well-formedness), so the `getD` default is never observed —
the JS code would throw on a missing node. -/
def relaxEdge (fastD : Coordinate → Coordinate → ℚ) (nodes : List (ℤ × Coordinate))
    (endCoord : Coordinate) (currId : ℤ) (currG : Option ℚ)
    (st : AState) (edge : EdgeTo) : AState :=
  match currG with
  | none => st
  | some g =>
      let tentG := g + edge.weight
      let better := match mapGet st.gScore edge.dest with
        | none => true
        | some gv => decide (tentG < gv)
      if better then
        { gScore := mapSet st.gScore edge.dest tentG
          prev := mapSet st.prev edge.dest currId
          heap := heapPush st.heap edge.dest
            (tentG + fastD ((mapGet nodes edge.dest).getD ⟨0, 0⟩) endCoord) }
      else st

/-- The `while (pq.size > 0)` loop of the A* search (dijkstra.ts 185-207),
with fuel; `none` is fuel exhaustion (a model artifact that cannot occur in
the source, whose loop terminates on float arithmetic). -/
def aLoop (fastD : Coordinate → Coordinate → ℚ) (nodes : List (ℤ × Coordinate))
    (graph : List (ℤ × List EdgeTo)) (endNode : ℤ) (endCoord : Coordinate) :
    ℕ → AState → Option AState
  | 0, st => if st.heap.isEmpty then some st else none
  | fuel + 1, st =>
      match heapPop st.heap with
      | (none, _) => some st
      | (some curr, h') =>
          if curr.id = endNode then some { st with heap := h' }
          else
            let currG := mapGet st.gScore curr.id
            match mapGet graph curr.id with
            | none => aLoop fastD nodes graph endNode endCoord fuel { st with heap := h' }
            | some neighbors =>
                aLoop fastD nodes graph endNode endCoord fuel
                  (neighbors.foldl (relaxEdge fastD nodes endCoord curr.id currG)
                    { st with heap := h' })

/-- The backwards walk of path reconstruction (dijkstra.ts 216-220):
`while (c !== undefined && c !== startNode) { path.unshift(c); c = prev.get(c) }`,
with fuel (`none` = fuel exhaustion, impossible for the acyclic predecessor
tables the search produces). -/
def reconLoop (prev : List (ℤ × ℤ)) (startNode : ℤ) :
    Option ℤ → List ℤ → ℕ → Option (List ℤ)
  | _, _, 0 => none
  | none, acc, _ + 1 => some acc
  | some c, acc, fuel + 1 =>
      if c = startNode then some acc
      else reconLoop prev startNode (mapGet prev c) (c :: acc) fuel

/-- `if (ds < minSD) { minSD = ds; startNode = id }` with the initial
`minSD = Infinity` modelled by the `none` accumulator. -/
def updateMin (acc : Option (ℤ × ℚ)) (id : ℤ) (d : ℚ) : Option (ℤ × ℚ) :=
  match acc with
  | none => some (id, d)
  | some (i0, d0) => if d < d0 then some (id, d) else some (i0, d0)

/-- The nearest-node scan (dijkstra.ts 154-164): walk the node table in
insertion order, skip ids without an adjacency entry, and track the
arg-min of the planar approximate distance for the start and the end
query point. -/
def nearestScan (fastD : Coordinate → Coordinate → ℚ)
    (nodes : List (ℤ × Coordinate)) (graph : List (ℤ × List EdgeTo))
    (start stop : Coordinate) : Option (ℤ × ℚ) × Option (ℤ × ℚ) :=
  nodes.foldl
    (fun acc p =>
      if (mapGet graph p.1).isNone then acc
      else (updateMin acc.1 p.1 (fastD start p.2),
            updateMin acc.2 p.1 (fastD stop p.2)))
    (none, none)

/-- The pure part of `computeDijkstraRoute` (dijkstra.ts 151-227) on an
already-fetched graph.  Outer `none` is fuel exhaustion; `some none` is the
source's `null` (no nearby road nodes, or no path); `some (some g)` is a
found geometry as a list of `[lat, lng]` pairs. -/
def computeOnGraph (fastD : Coordinate → Coordinate → ℚ) (gd : GraphData)
    (start stop : Coordinate) (fuel : ℕ) : Option (Option (List (ℚ × ℚ))) :=
  match nearestScan fastD gd.nodes gd.graph start stop with
  | (none, _) => some none
  | (some _, none) => some none
  | (some (startNode, _), some (endNode, _)) =>
      let endCoord := (mapGet gd.nodes endNode).getD ⟨0, 0⟩
      let st0 : AState :=
        { gScore := mapSet [] startNode 0
          prev := []
          heap := heapPush [] startNode
            (fastD ((mapGet gd.nodes startNode).getD ⟨0, 0⟩) endCoord) }
      match aLoop fastD gd.nodes gd.graph endNode endCoord fuel st0 with
      | none => none
      | some st =>
          if (mapGet st.prev endNode) = none ∧ startNode ≠ endNode then some none
          else
            match reconLoop st.prev startNode (some endNode) [] fuel with
            | none => none
            | some acc =>
                some (some ((startNode :: acc).map
                  (fun id => (((mapGet gd.nodes id).getD ⟨0, 0⟩).lat,
                    ((mapGet gd.nodes id).getD ⟨0, 0⟩).lng))))

/-- `computeDijkstraRoute`: fetch (or hit the cache for) the road network,
then run the nearest-node resolution, A* search and reconstruction. -/
def computeDijkstraRoute (hav fastD : Coordinate → Coordinate → ℚ)
    (provider : BBox → Except Unit (List OsmElement)) (cache : Cache)
    (start stop : Coordinate) (fuel : ℕ) :
    Except Unit (Option (Option (List (ℚ × ℚ))) × Cache × Bool) :=
  match fetchRoadNetwork hav provider cache start stop with
  | .error e => .error e
  | .ok (gd, c', b) => .ok (computeOnGraph fastD gd start stop fuel, c', b)

/-- `RouteStep` of `routing.ts`. -/
structure RouteStep where
  instruction : String
  distance : ℚ
  duration : ℚ
deriving DecidableEq, Repr

/-- The `algorithm` tag of `RouteData`: `'dijkstra' | 'osrm'`. -/
inductive Algorithm
  | dijkstra
  | osrm
deriving DecidableEq, Repr

/-- `RouteData` of `routing.ts`. -/
structure RouteData where
  geometry : List (ℚ × ℚ)
  distance : ℚ
  duration : ℚ
  steps : List RouteStep
  algorithm : Algorithm
deriving DecidableEq, Repr

/-- `const DIJKSTRA_MAX_DISTANCE = 15_000`. -/
def DIJKSTRA_MAX_DISTANCE : ℚ := 15000

/-- The distance-summation loop of `fetchDijkstraRoute` (routing.ts 68-74):
left-to-right accumulation of the haversine distances of consecutive
geometry points. -/
def sumPairwise (hav : Coordinate → Coordinate → ℚ)
    (geometry : List (ℚ × ℚ)) : ℚ :=
  (geometry.zip geometry.tail).foldl
    (fun d pq => d + hav ⟨pq.1.1, pq.1.2⟩ ⟨pq.2.1, pq.2.2⟩) 0

/-- `fetchDijkstraRoute` (routing.ts 64-85): run the local search, then
normalize its geometry into a `RouteData` tagged `dijkstra`, with distance
recomputed from the geometry and duration from a 40 km/h urban speed. -/
def fetchDijkstraRoute (hav fastD : Coordinate → Coordinate → ℚ)
    (provider : BBox → Except Unit (List OsmElement)) (cache : Cache)
    (start stop : Coordinate) (fuel : ℕ) :
    Except Unit (Option (Option RouteData) × Cache × Bool) :=
  match computeDijkstraRoute hav fastD provider cache start stop fuel with
  | .error e => .error e
  | .ok (none, c, b) => .ok (none, c, b)
  | .ok (some none, c, b) => .ok (some none, c, b)
  | .ok (some (some geometry), c, b) =>
      let distance := sumPairwise hav geometry
      let duration := distance / 40000 * 3600
      .ok (some (some
        { geometry := geometry
          distance := distance
          duration := duration
          steps := [⟨"Follow the highlighted shortest path.", distance, duration⟩]
          algorithm := .dijkstra }), c, b)

/-- One maneuver step of an OSRM route leg. -/
structure OsrmStep where
  maneuverType : String
  maneuverModifier : Option String
  name : String
  distance : ℚ
  duration : ℚ
deriving DecidableEq, Repr

/-- One leg of an OSRM route. -/
structure OsrmLeg where
  steps : List OsrmStep
deriving DecidableEq, Repr

/-- One route of an OSRM response; `coordinates` are `(lng, lat)` pairs
(reversed axis order, swapped on ingestion). -/
structure OsrmRoute where
  coordinates : List (ℚ × ℚ)
  legs : List OsrmLeg
  distance : ℚ
  duration : ℚ
deriving DecidableEq, Repr

/-- A parsed OSRM response body. -/
structure OsrmResponse where
  code : String
  routes : List OsrmRoute
deriving DecidableEq, Repr

/-- The step-instruction string of `fetchOSRMRoute` (routing.ts 44-50).
JavaScript truthiness makes both a missing and an empty-string modifier
fall back to the no-modifier format, and an empty road name to
`'unnamed road'`. -/
def stepInstruction (s : OsrmStep) : String :=
  let roadName := if s.name = "" then "unnamed road" else s.name
  match s.maneuverModifier with
  | some m =>
      if m = "" then s.maneuverType ++ " on " ++ roadName
      else s.maneuverType ++ " " ++ m ++ " on " ++ roadName
  | none => s.maneuverType ++ " on " ++ roadName

/-- `fetchOSRMRoute` (routing.ts 30-59).  The input is the outcome of the
network request: an error (fetch failure or non-ok status, which the source
turns into a thrown exception) or the parsed body.  A non-`Ok` code or an
empty route list is the `null` outcome.  An `Ok` route with no legs makes
the source throw (`route.legs[0].steps` on `undefined`), modelled as an
error. -/
def fetchOSRMRoute (resp : Except Unit OsrmResponse) :
    Except Unit (Option RouteData) :=
  match resp with
  | .error e => .error e
  | .ok data =>
      if data.code ≠ "Ok" ∨ data.routes = [] then .ok none
      else
        match data.routes with
        | [] => .ok none
        | route :: _ =>
            let geometry := route.coordinates.map (fun c => (c.2, c.1))
            match route.legs with
            | [] => .error ()
            | leg :: _ =>
                .ok (some
                  { geometry := geometry
                    distance := route.distance
                    duration := route.duration
                    steps := leg.steps.map (fun s =>
                      ⟨stepInstruction s, s.distance, s.duration⟩)
                    algorithm := .osrm })

/-- `fetchRoute` (routing.ts 91-111), the hybrid dispatch.  The `try`
block's caught exceptions become `(unchanged-or-updated cache, none)`:
the only local throw site is the Overpass fetch, which happens before any
cache write, so the cache is unchanged on that path.  Outer `none` is
fuel exhaustion of the local search loops (model artifact). -/
def fetchRoute (hav fastD : Coordinate → Coordinate → ℚ)
    (provider : BBox → Except Unit (List OsmElement))
    (osrmResp : Except Unit OsrmResponse) (cache : Cache)
    (start stop : Coordinate) (fuel : ℕ) : Option (Cache × Option RouteData) :=
  let straightLine := hav start stop
  if straightLine ≤ DIJKSTRA_MAX_DISTANCE then
    match fetchDijkstraRoute hav fastD provider cache start stop fuel with
    | .error _ => some (cache, none)
    | .ok (none, _, _) => none
    | .ok (some (some r), c, _) => some (c, some r)
    | .ok (some none, c, _) =>
        match fetchOSRMRoute osrmResp with
        | .error _ => some (c, none)
        | .ok r => some (c, r)
  else
    match fetchOSRMRoute osrmResp with
    | .error _ => some (cache, none)
    | .ok r => some (cache, r)

/-- A provider that always answers with the two-node fixture. -/
def wfProvider : BBox → Except Unit (List OsmElement) := fun _ => .ok wfElems

/-- A provider whose answer has a node but no ways (empty adjacency). -/
def nodesOnlyProvider : BBox → Except Unit (List OsmElement) :=
  fun _ => .ok [.node 1 0 0]

/-- A provider whose request always fails (timeout / non-ok status). -/
def failProvider : BBox → Except Unit (List OsmElement) := fun _ => .error ()

/-- The graph built from the two-node fixture. -/
def wfGraph : GraphData := buildGraphData havZero wfElems

/-- A concrete well-formed OSRM route for witnesses: one `(lng, lat)`
geometry point, one leg with no steps, distance 100 m, duration 10 s. -/
def osrmRouteW : OsrmRoute := ⟨[(1, 2)], [⟨[]⟩], 100, 10⟩

/-- A concrete successful OSRM response carrying `osrmRouteW`. -/
def osrmRespW : OsrmResponse := ⟨"Ok", [osrmRouteW]⟩

/-- The `RouteData` that `fetchOSRMRoute` produces from `osrmRespW`. -/
def osrmRouteDataW : RouteData := ⟨[(2, 1)], 100, 10, [], .osrm⟩

/-- The `RouteData` of the single-node local route at the origin on the
two-node fixture. -/
def wfRouteW : RouteData :=
  ⟨[(0, 0)], 0, 0, [⟨"Follow the highlighted shortest path.", 0, 0⟩], .dijkstra⟩

/-- The remote-path outcome as observed by `fetchRoute`'s `catch`: an OSRM
error becomes `none`, a parsed outcome is passed through. -/
def osrmOutcome (resp : Except Unit OsrmResponse) : Option RouteData :=
  match fetchOSRMRoute resp with
  | .error _ => none
  | .ok r => r

/-- One component of the nearest-node scan: the `updateMin` fold for a
single query point over a node list (used to characterize `nearestScan`). -/
def nearestFold (fastD : Coordinate → Coordinate → ℚ) (q : Coordinate)
    (l : List (ℤ × Coordinate)) (acc : Option (ℤ × ℚ)) : Option (ℤ × ℚ) :=
  l.foldl (fun a p => updateMin a p.1 (fastD q p.2)) acc

/-- The nodes eligible as search endpoints: the entries of the node table
(in insertion order) that have an adjacency entry. -/
def eligibleNodes (graph : List (ℤ × List EdgeTo))
    (nodes : List (ℤ × Coordinate)) : List (ℤ × Coordinate) :=
  nodes.filter (fun p => (mapGet graph p.1).isSome)

/-! ## Theorems -/

theorem heapPush_nil (id : ℤ) (f : ℚ) : heapPush [] id f = [⟨id, f⟩] := by
  show bubbleUp [⟨id, f⟩] 0 = [⟨id, f⟩]
  rw [bubbleUp]

theorem mapGet_mapSet {κ α : Type} [DecidableEq κ]
    (m : List (κ × α)) (k k' : κ) (v : α) :
    mapGet (mapSet m k v) k' = if k = k' then some v else mapGet m k' := by
  induction m with
  | nil =>
    by_cases h : k = k' <;> simp [mapSet, mapGet, h]
  | cons p rest ih =>
    obtain ⟨a, b⟩ := p
    by_cases hak : a = k
    · subst hak
      by_cases h : a = k' <;> simp [mapSet, mapGet, h]
    · by_cases h : a = k'
      · subst h
        have hkk : ¬ k = a := fun hh => hak hh.symm
        simp [mapSet, mapGet, hak, hkk, ih]
      · simp [mapSet, mapGet, hak, h, ih]

theorem mem_mapSet {κ α : Type} [DecidableEq κ]
    {m : List (κ × α)} {k k' : κ} {v v' : α}
    (h : (k', v') ∈ mapSet m k v) : (k' = k ∧ v' = v) ∨ (k', v') ∈ m := by
  induction m with
  | nil =>
    simp [mapSet] at h
    exact Or.inl ⟨h.1, h.2⟩
  | cons p rest ih =>
    obtain ⟨a, b⟩ := p
    by_cases hak : a = k
    · subst hak
      simp [mapSet] at h
      rcases h with ⟨h1, h2⟩ | h
      · exact Or.inl ⟨h1, h2⟩
      · exact Or.inr (List.mem_cons_of_mem _ h)
    · simp [mapSet, hak] at h
      rcases h with ⟨h1, h2⟩ | h
      · exact Or.inr (by simp [h1, h2])
      · rcases ih h with h' | h'
        · exact Or.inl h'
        · exact Or.inr (List.mem_cons_of_mem _ h')

/-! ## Bounding box, cache key, raw map elements (dijkstra.ts 75-146) -/

theorem toFixed4_eval {x : ℚ} {n : ℕ} (s : Bool) (y : ℚ)
    (hs : decide (x < 0) = s) (habs : |x| = y)
    (h1 : (n : ℚ) ≤ y * 10000 + 1 / 2) (h2 : y * 10000 + 1 / 2 < n + 1) :
    toFixed4 x = (s, n) := by
  unfold toFixed4
  rw [hs, habs]
  have hfl : ⌊y * 10000 + 1 / 2⌋ = (n : ℤ) := by
    rw [Int.floor_eq_iff]
    refine ⟨by exact_mod_cast h1, by push_cast; exact h2⟩
  rw [hfl]
  simp

theorem mapGet_mem {κ α : Type} [DecidableEq κ] {m : List (κ × α)} {k : κ} {v : α}
    (h : mapGet m k = some v) : (k, v) ∈ m := by
  induction m with
  | nil => simp [mapGet] at h
  | cons p rest ih =>
    obtain ⟨a, b⟩ := p
    by_cases hak : a = k
    · subst hak
      simp [mapGet] at h
      simp [h]
    · simp [mapGet, hak] at h
      exact List.mem_cons_of_mem _ (ih h)

theorem fetchRoadNetwork_cache_mem {hav provider cache s e gd c' b}
    (h : fetchRoadNetwork hav provider cache s e = .ok (gd, c', b)) :
    mapGet c' (bboxKey (routeBBox s e)) = some gd := by
  unfold fetchRoadNetwork at h
  cases hc : mapGet cache (bboxKey (routeBBox s e)) with
  | some gd0 =>
    simp [hc] at h
    obtain ⟨h1, h2, _⟩ := h
    subst h1; subst h2
    exact hc
  | none =>
    simp [hc] at h
    cases hp : provider (routeBBox s e) with
    | error e0 => simp [hp] at h
    | ok els =>
      simp [hp] at h
      obtain ⟨h1, h2, _⟩ := h
      subst h1; subst h2
      simp [mapGet_mapSet]

theorem foldl_preserve {α β : Type} {P : α → Prop} {f : α → β → α}
    (hf : ∀ a b, P a → P (f a b)) :
    ∀ (l : List β) (init : α), P init → P (l.foldl f init) := by
  intro l
  induction l with
  | nil => intro init h; exact h
  | cons x xs ih => intro init h; exact ih (f init x) (hf init x h)

theorem graphAtL_mapSet_append (g : List (ℤ × List EdgeTo)) (p : ℤ) (e : EdgeTo)
    (k : ℤ) :
    graphAtL (mapSet g p ((mapGet g p).getD [] ++ [e])) k
      = if p = k then (mapGet g p).getD [] ++ [e] else graphAtL g k := by
  unfold graphAtL
  rw [mapGet_mapSet]
  by_cases h : p = k <;> simp [h]

theorem wf_appendEdge {nodes : List (ℤ × Coordinate)} {g : List (ℤ × List EdgeTo)}
    {p : ℤ} {e : EdgeTo} (hw : WFGraph nodes g)
    (hp : (mapGet nodes p).isSome) (he : (mapGet nodes e.dest).isSome) :
    WFGraph nodes (mapSet g p ((mapGet g p).getD [] ++ [e])) := by
  intro k es hmem
  rcases mem_mapSet hmem with ⟨hk, hes⟩ | hold
  · subst hk; subst hes
    refine ⟨by simp, hp, ?_⟩
    intro e' he'
    rcases List.mem_append.1 he' with h1 | h2
    · cases hgp : mapGet g k with
      | none => rw [hgp] at h1; simp at h1
      | some es0 =>
          rw [hgp] at h1
          exact (hw k es0 (mapGet_mem hgp)).2.2 e' h1
    · rw [List.mem_singleton.1 h2]
      exact he
  · exact hw k es hold

theorem mem_ite_nil {α : Type} {c : Prop} [Decidable c] {e x : α} :
    x ∈ (if c then [e] else ([] : List α)) ↔ c ∧ x = e := by
  split_ifs with h <;> simp [h]

theorem mapGet_set_append (g : List (ℤ × List EdgeTo)) (p : ℤ) (e : EdgeTo)
    (k : ℤ) :
    (mapGet (mapSet g p ((mapGet g p).getD [] ++ [e])) k).getD []
      = if p = k then (mapGet g p).getD [] ++ [e] else (mapGet g k).getD [] := by
  rw [mapGet_mapSet]
  by_cases h : p = k <;> simp [h]

theorem graphAtL_addSegment {hav : Coordinate → Coordinate → ℚ}
    {nodes : List (ℤ × Coordinate)} {ow : Bool} {g : List (ℤ × List EdgeTo)}
    {p q : ℤ} (k : ℤ) (cp cq : Coordinate)
    (hp : mapGet nodes p = some cp) (hq : mapGet nodes q = some cq) :
    graphAtL (addSegment hav nodes ow g p q) k
      = graphAtL g k ++ (if p = k then [⟨q, hav cp cq⟩] else [])
          ++ (if ow = false ∧ q = k then [⟨p, hav cp cq⟩] else []) := by
  cases ow with
  | true =>
      have hstep : addSegment hav nodes true g p q
          = mapSet g p ((mapGet g p).getD [] ++ [⟨q, hav cp cq⟩]) := by
        unfold addSegment
        rw [hp, hq]
        rfl
      rw [hstep]
      unfold graphAtL
      rw [mapGet_set_append]
      by_cases hpk : p = k <;> simp [hpk]
  | false =>
      have hstep : addSegment hav nodes false g p q
          = mapSet (mapSet g p ((mapGet g p).getD [] ++ [⟨q, hav cp cq⟩])) q
              ((mapGet (mapSet g p ((mapGet g p).getD [] ++ [⟨q, hav cp cq⟩])) q).getD []
                ++ [⟨p, hav cp cq⟩]) := by
        unfold addSegment
        rw [hp, hq]
        rfl
      rw [hstep]
      unfold graphAtL
      rw [mapGet_mapSet]
      by_cases hqk : q = k
      · subst hqk
        rw [if_pos rfl, Option.getD_some, mapGet_mapSet]
        by_cases hpq : p = q
        · subst hpq
          simp
        · simp [hpq]
      · rw [if_neg hqk, mapGet_mapSet]
        by_cases hpk : p = k
        · subst hpk
          simp [hqk]
        · simp [hpk, hqk]

theorem mem_graphAtL_addSegment {hav : Coordinate → Coordinate → ℚ}
    {nodes : List (ℤ × Coordinate)} {ow : Bool} {g : List (ℤ × List EdgeTo)}
    {p q : ℤ} {x : EdgeTo} {k : ℤ} :
    x ∈ graphAtL (addSegment hav nodes ow g p q) k ↔
      x ∈ graphAtL g k ∨ segContrib hav nodes ow p q x k := by
  cases hp : mapGet nodes p with
  | none =>
      have hg : addSegment hav nodes ow g p q = g := by
        unfold addSegment
        rw [hp]
      rw [hg]
      simp [segContrib, hp]
  | some cp =>
      cases hq : mapGet nodes q with
      | none =>
          have hg : addSegment hav nodes ow g p q = g := by
            unfold addSegment
            rw [hp, hq]
          rw [hg]
          simp [segContrib, hp, hq]
      | some cq =>
          rw [graphAtL_addSegment k cp cq hp hq]
          simp only [List.mem_append, mem_ite_nil, segContrib]
          constructor
          · rintro ((hx | ⟨hpk, hx⟩) | ⟨⟨how, hqk⟩, hx⟩)
            · exact Or.inl hx
            · exact Or.inr ⟨cp, cq, hp, hq, Or.inl ⟨hpk.symm, hx⟩⟩
            · exact Or.inr ⟨cp, cq, hp, hq, Or.inr ⟨how, hqk.symm, hx⟩⟩
          · rintro (hx | ⟨cp', cq', hp', hq', hc⟩)
            · exact Or.inl (Or.inl hx)
            · rw [hp] at hp'
              rw [hq] at hq'
              obtain rfl : cp = cp' := Option.some.inj hp'
              obtain rfl : cq = cq' := Option.some.inj hq'
              rcases hc with ⟨hkp, hx⟩ | ⟨how, hkq, hx⟩
              · exact Or.inl (Or.inr ⟨hkp.symm, hx⟩)
              · exact Or.inr ⟨⟨how, hkq.symm⟩, hx⟩

theorem mem_graphAtL_foldPairs {hav : Coordinate → Coordinate → ℚ}
    {nodes : List (ℤ × Coordinate)} {ow : Bool} (ps : List (ℤ × ℤ))
    (g : List (ℤ × List EdgeTo)) (x : EdgeTo) (k : ℤ) :
    x ∈ graphAtL (ps.foldl (fun g' pq => addSegment hav nodes ow g' pq.1 pq.2) g) k ↔
      x ∈ graphAtL g k ∨ ∃ pq ∈ ps, segContrib hav nodes ow pq.1 pq.2 x k := by
  induction ps generalizing g with
  | nil => simp
  | cons p0 ps ih =>
      rw [List.foldl_cons, ih, mem_graphAtL_addSegment]
      constructor
      · rintro ((hx | hc) | ⟨pq, hpq, hc⟩)
        · exact Or.inl hx
        · exact Or.inr ⟨p0, by simp, hc⟩
        · exact Or.inr ⟨pq, List.mem_cons_of_mem _ hpq, hc⟩
      · rintro (hx | ⟨pq, hpq, hc⟩)
        · exact Or.inl (Or.inl hx)
        · rcases List.mem_cons.1 hpq with rfl | hmem
          · exact Or.inl (Or.inr hc)
          · exact Or.inr ⟨pq, hmem, hc⟩

theorem mem_graphAtL_addWayEdges {hav : Coordinate → Coordinate → ℚ}
    {nodes : List (ℤ × Coordinate)} (w : Way) (g : List (ℤ × List EdgeTo))
    (x : EdgeTo) (k : ℤ) :
    x ∈ graphAtL (addWayEdges hav nodes g w) k ↔
      x ∈ graphAtL g k ∨ wayContrib hav nodes w x k := by
  unfold addWayEdges wayContrib
  rw [mem_graphAtL_foldPairs]
  constructor
  · rintro (h | ⟨⟨p, q⟩, hm, hc⟩)
    · exact Or.inl h
    · exact Or.inr ⟨p, q, hm, hc⟩
  · rintro (h | ⟨p, q, hm, hc⟩)
    · exact Or.inl h
    · exact Or.inr ⟨(p, q), hm, hc⟩

theorem mem_graphAtL_foldWays {hav : Coordinate → Coordinate → ℚ}
    {nodes : List (ℤ × Coordinate)} (ws : List Way) (g : List (ℤ × List EdgeTo))
    (x : EdgeTo) (k : ℤ) :
    x ∈ graphAtL (ws.foldl (addWayEdges hav nodes) g) k ↔
      x ∈ graphAtL g k ∨ ∃ w ∈ ws, wayContrib hav nodes w x k := by
  induction ws generalizing g with
  | nil => simp
  | cons w0 ws ih =>
      rw [List.foldl_cons, ih, mem_graphAtL_addWayEdges]
      constructor
      · rintro ((hx | hc) | ⟨w, hw, hc⟩)
        · exact Or.inl hx
        · exact Or.inr ⟨w0, by simp, hc⟩
        · exact Or.inr ⟨w, List.mem_cons_of_mem _ hw, hc⟩
      · rintro (hx | ⟨w, hw, hc⟩)
        · exact Or.inl (Or.inl hx)
        · rcases List.mem_cons.1 hw with rfl | hmem
          · exact Or.inl (Or.inr hc)
          · exact Or.inr ⟨w, hmem, hc⟩

theorem mem_parseWays_aux (elements : List OsmElement) (acc : List Way) (w : Way) :
    w ∈ elements.foldl
        (fun ws el =>
          match el with
          | .node _ _ _ => ws
          | .way ns t => ws ++ [⟨ns, decide (t = some "yes")⟩]) acc ↔
      w ∈ acc ∨ ∃ ns t, OsmElement.way ns t ∈ elements
        ∧ w = ⟨ns, decide (t = some "yes")⟩ := by
  induction elements generalizing acc with
  | nil => simp
  | cons el els ih =>
      cases el with
      | node i la lo =>
          rw [List.foldl_cons]
          dsimp only
          rw [ih]
          simp
      | way ns t =>
          rw [List.foldl_cons]
          dsimp only
          rw [ih]
          constructor
          · rintro (hacc | ⟨ns', t', hm, rfl⟩)
            · rcases List.mem_append.1 hacc with h | h
              · exact Or.inl h
              · rcases List.mem_singleton.1 h with rfl
                exact Or.inr ⟨ns, t, by simp, rfl⟩
            · exact Or.inr ⟨ns', t', List.mem_cons_of_mem _ hm, rfl⟩
          · rintro (hacc | ⟨ns', t', hm, rfl⟩)
            · exact Or.inl (List.mem_append.2 (Or.inl hacc))
            · rcases List.mem_cons.1 hm with heq | hmem
              · obtain ⟨rfl, rfl⟩ : ns' = ns ∧ t' = t := by
                  injection heq with h1 h2
                  exact ⟨h1, h2⟩
                exact Or.inl (List.mem_append.2 (Or.inr (by simp)))
              · exact Or.inr ⟨ns', t', hmem, rfl⟩

theorem mem_parseWays {elements : List OsmElement} {w : Way} :
    w ∈ parseWays elements ↔
      ∃ ns t, OsmElement.way ns t ∈ elements
        ∧ w = ⟨ns, decide (t = some "yes")⟩ := by
  unfold parseWays
  rw [mem_parseWays_aux]
  simp

theorem mem_consecutivePairs {ns : List ℤ} {p q : ℤ} :
    (p, q) ∈ consecutivePairs ns ↔
      ∃ i, ns.get? i = some p ∧ ns.get? (i + 1) = some q := by
  induction ns with
  | nil => simp [consecutivePairs]
  | cons a t ih =>
      cases t with
      | nil =>
          constructor
          · intro h
            simp [consecutivePairs] at h
          · rintro ⟨i, h1, h2⟩
            cases i with
            | zero => simp at h2
            | succ j => simp at h1
      | cons b t' =>
          have hcp : consecutivePairs (a :: b :: t')
              = (a, b) :: consecutivePairs (b :: t') := rfl
          rw [hcp, List.mem_cons, ih]
          constructor
          · rintro (heq | ⟨i, h1, h2⟩)
            · rw [Prod.mk.injEq] at heq
              obtain ⟨rfl, rfl⟩ := heq
              exact ⟨0, rfl, rfl⟩
            · exact ⟨i + 1, h1, h2⟩
          · rintro ⟨i, h1, h2⟩
            cases i with
            | zero =>
                left
                simp only [List.get?_cons_zero, Option.some.injEq] at h1
                simp only [List.get?_cons_succ, List.get?_cons_zero,
                  Option.some.injEq] at h2
                rw [Prod.mk.injEq]
                exact ⟨h1.symm, h2.symm⟩
            | succ j =>
                right
                exact ⟨j, h1, h2⟩

/-- C3 (amended): two requests whose padded boxes' four bounds each round
to the same 4-decimal `toFixed` value get equal canonical keys, so the
second request is a cache hit returning the cached graph with no second
fetch; two requests with distinct keys (in particular clearly disjoint
boxes) both fetch and leave two independent cache entries. -/
theorem routeCache_hit_and_disjoint
    (hav : Coordinate → Coordinate → ℚ)
    (provider : BBox → Except Unit (List OsmElement))
    (cache : Cache) (s1 e1 s2 e2 : Coordinate) :
    (∀ gd c' b, bboxKey (routeBBox s1 e1) = bboxKey (routeBBox s2 e2) →
      fetchRoadNetwork hav provider cache s1 e1 = .ok (gd, c', b) →
      fetchRoadNetwork hav provider c' s2 e2 = .ok (gd, c', false)) ∧
    (∀ els1 els2,
      bboxKey (routeBBox s1 e1) ≠ bboxKey (routeBBox s2 e2) →
      mapGet cache (bboxKey (routeBBox s1 e1)) = none →
      mapGet cache (bboxKey (routeBBox s2 e2)) = none →
      provider (routeBBox s1 e1) = .ok els1 →
      provider (routeBBox s2 e2) = .ok els2 →
      ∃ c2 : Cache,
        fetchRoadNetwork hav provider cache s1 e1
          = .ok (buildGraphData hav els1,
              mapSet cache (bboxKey (routeBBox s1 e1)) (buildGraphData hav els1),
              true) ∧
        fetchRoadNetwork hav provider
            (mapSet cache (bboxKey (routeBBox s1 e1)) (buildGraphData hav els1))
            s2 e2
          = .ok (buildGraphData hav els2, c2, true) ∧
        mapGet c2 (bboxKey (routeBBox s1 e1)) = some (buildGraphData hav els1) ∧
        mapGet c2 (bboxKey (routeBBox s2 e2)) = some (buildGraphData hav els2)) := by
  constructor
  · intro gd c' b hkey h
    have hmem := fetchRoadNetwork_cache_mem h
    rw [hkey] at hmem
    unfold fetchRoadNetwork
    simp [hmem]
  · intro els1 els2 hne hm1 hm2 hp1 hp2
    refine ⟨mapSet (mapSet cache (bboxKey (routeBBox s1 e1)) (buildGraphData hav els1))
      (bboxKey (routeBBox s2 e2)) (buildGraphData hav els2), ?_, ?_, ?_, ?_⟩
    · unfold fetchRoadNetwork
      simp [hm1, hp1]
    · unfold fetchRoadNetwork
      have : mapGet (mapSet cache (bboxKey (routeBBox s1 e1)) (buildGraphData hav els1))
          (bboxKey (routeBBox s2 e2)) = none := by
        rw [mapGet_mapSet]
        simp [hne, hm2]
      simp [this, hp2]
    · rw [mapGet_mapSet]
      have hne' : ¬ bboxKey (routeBBox s2 e2) = bboxKey (routeBBox s1 e1) :=
        fun h => hne h.symm
      simp [hne', mapGet_mapSet]
    · rw [mapGet_mapSet]
      simp

/-- C3 witness: a concrete repeat query at the origin is a cache hit with
no second fetch. -/
theorem routeCache_hit_witness :
    fetchRoadNetwork havZero providerEmpty cacheAfterOrigin origin origin
      = .ok (buildGraphData havZero [], cacheAfterOrigin, false) :=
  (routeCache_hit_and_disjoint havZero providerEmpty [] origin origin origin origin).1
    (buildGraphData havZero []) cacheAfterOrigin true rfl rfl

theorem cexBox1 :
    routeBBox cexStart1 cexStart1
      = ⟨-(1496 / 100000), -(15 / 1000), 1504 / 100000, 15 / 1000⟩ := by
  unfold routeBBox cexStart1 pad
  norm_num [BBox.mk.injEq]

theorem cexBox2 :
    routeBBox cexStart2 cexStart2
      = ⟨-(1488 / 100000), -(15 / 1000), 1512 / 100000, 15 / 1000⟩ := by
  unfold routeBBox cexStart2 pad
  norm_num [BBox.mk.injEq]

theorem cexKey1 :
    bboxKey (routeBBox cexStart1 cexStart1)
      = ((true, 150), (true, 150), (false, 150), (false, 150)) := by
  rw [cexBox1]
  unfold bboxKey
  rw [show toFixed4 (-(1496 / 100000) : ℚ) = (true, 150) from
      toFixed4_eval true (1496 / 100000) (by norm_num) (by norm_num) (by norm_num)
        (by norm_num),
    show toFixed4 (-(15 / 1000) : ℚ) = (true, 150) from
      toFixed4_eval true (15 / 1000) (by norm_num) (by norm_num) (by norm_num)
        (by norm_num),
    show toFixed4 ((1504 / 100000 : ℚ)) = (false, 150) from
      toFixed4_eval false (1504 / 100000) (by norm_num) (by norm_num) (by norm_num)
        (by norm_num),
    show toFixed4 ((15 / 1000 : ℚ)) = (false, 150) from
      toFixed4_eval false (15 / 1000) (by norm_num) (by norm_num) (by norm_num)
        (by norm_num)]

theorem cexKey2 :
    bboxKey (routeBBox cexStart2 cexStart2)
      = ((true, 149), (true, 150), (false, 151), (false, 150)) := by
  rw [cexBox2]
  unfold bboxKey
  rw [show toFixed4 (-(1488 / 100000) : ℚ) = (true, 149) from
      toFixed4_eval true (1488 / 100000) (by norm_num) (by norm_num) (by norm_num)
        (by norm_num),
    show toFixed4 (-(15 / 1000) : ℚ) = (true, 150) from
      toFixed4_eval true (15 / 1000) (by norm_num) (by norm_num) (by norm_num)
        (by norm_num),
    show toFixed4 ((1512 / 100000 : ℚ)) = (false, 151) from
      toFixed4_eval false (1512 / 100000) (by norm_num) (by norm_num) (by norm_num)
        (by norm_num),
    show toFixed4 ((15 / 1000 : ℚ)) = (false, 150) from
      toFixed4_eval false (15 / 1000) (by norm_num) (by norm_num) (by norm_num)
        (by norm_num)]

/-- C3 counterexample to the claim as stated: two requests whose padded
boxes' four bounds each differ by less than the 10⁻⁴ rounding precision,
yet whose canonical keys differ, so the second request misses the cache
and performs a second fetch (the final `didFetch` component is `true`). -/
theorem routeCache_precision_counterexample :
    (|(routeBBox cexStart1 cexStart1).minLat - (routeBBox cexStart2 cexStart2).minLat|
        < 1 / 10000 ∧
      |(routeBBox cexStart1 cexStart1).minLon - (routeBBox cexStart2 cexStart2).minLon|
        < 1 / 10000 ∧
      |(routeBBox cexStart1 cexStart1).maxLat - (routeBBox cexStart2 cexStart2).maxLat|
        < 1 / 10000 ∧
      |(routeBBox cexStart1 cexStart1).maxLon - (routeBBox cexStart2 cexStart2).maxLon|
        < 1 / 10000) ∧
    bboxKey (routeBBox cexStart1 cexStart1) ≠ bboxKey (routeBBox cexStart2 cexStart2) ∧
    ((fetchRoadNetwork havZero providerEmpty [] cexStart1 cexStart1).toOption.bind
      (fun r =>
        (fetchRoadNetwork havZero providerEmpty r.2.1 cexStart2 cexStart2).toOption.map
          (fun r2 => r2.2.2))) = some true := by
  refine ⟨?_, ?_, ?_⟩
  · refine ⟨?_, ?_, ?_, ?_⟩ <;>
      · rw [cexBox1, cexBox2, abs_lt]
        constructor <;> norm_num
  · rw [cexKey1, cexKey2]
    simp
  · have h1 : fetchRoadNetwork havZero providerEmpty [] cexStart1 cexStart1
        = .ok (buildGraphData havZero [],
            mapSet [] (bboxKey (routeBBox cexStart1 cexStart1)) (buildGraphData havZero []),
            true) := rfl
    rw [h1]
    have hne : mapGet
        (mapSet ([] : Cache) (bboxKey (routeBBox cexStart1 cexStart1)) (buildGraphData havZero []))
        (bboxKey (routeBBox cexStart2 cexStart2)) = none := by
      rw [mapGet_mapSet, cexKey1, cexKey2]
      simp [mapGet]
    have h2 : fetchRoadNetwork havZero providerEmpty
        (mapSet [] (bboxKey (routeBBox cexStart1 cexStart1)) (buildGraphData havZero []))
        cexStart2 cexStart2
        = .ok (buildGraphData havZero [],
            mapSet (mapSet [] (bboxKey (routeBBox cexStart1 cexStart1)) (buildGraphData havZero []))
              (bboxKey (routeBBox cexStart2 cexStart2)) (buildGraphData havZero []),
            true) := by
      unfold fetchRoadNetwork
      simp [hne, providerEmpty]
    simp [Except.toOption, h2]

/-- C5: characterization of the constructed adjacency structure.  An edge
`x` is stored at key `a` exactly when some way of the element set has a
consecutive node pair, with both coordinates present in the node table,
that contributes it: the forward direction `a → x.dest` weighted by the
haversine distance of the two coordinates, or — only when the way is not
tagged `oneway=yes` — the reverse direction of a pair `(x.dest, a)`, with
the same weight as its forward twin. -/
theorem buildGraph_edge_iff (hav : Coordinate → Coordinate → ℚ)
    (elements : List OsmElement) (a : ℤ) (x : EdgeTo) :
    x ∈ graphAtL (buildGraphData hav elements).graph a ↔
      ∃ ns t i, OsmElement.way ns t ∈ elements ∧
        ((∃ ca cb,
            ns.get? i = some a ∧ ns.get? (i + 1) = some x.dest ∧
            mapGet (parseNodes elements) a = some ca ∧
            mapGet (parseNodes elements) x.dest = some cb ∧
            x.weight = hav ca cb)
          ∨ (t ≠ some "yes" ∧ ∃ cb ca,
            ns.get? i = some x.dest ∧ ns.get? (i + 1) = some a ∧
            mapGet (parseNodes elements) x.dest = some cb ∧
            mapGet (parseNodes elements) a = some ca ∧
            x.weight = hav cb ca)) := by
  have hb : (buildGraphData hav elements).graph
      = (parseWays elements).foldl (addWayEdges hav (parseNodes elements)) [] := rfl
  rw [hb, mem_graphAtL_foldWays]
  have hnil : x ∈ graphAtL [] a ↔ False := by simp [graphAtL, mapGet]
  rw [hnil]
  constructor
  · rintro (h | ⟨w, hw, p, q, hpq, cp, cq, hp, hq, hc⟩)
    · exact absurd h id
    · obtain ⟨ns, t, hel, rfl⟩ := mem_parseWays.1 hw
      obtain ⟨i, h1, h2⟩ := mem_consecutivePairs.1 hpq
      rcases hc with ⟨rfl, rfl⟩ | ⟨how, rfl, rfl⟩
      · exact ⟨ns, t, i, hel, Or.inl ⟨cp, cq, h1, h2, hp, hq, rfl⟩⟩
      · exact ⟨ns, t, i, hel,
          Or.inr ⟨of_decide_eq_false how, cp, cq, h1, h2, hp, hq, rfl⟩⟩
  · rintro ⟨ns, t, i, hel, hcase⟩
    right
    refine ⟨⟨ns, decide (t = some "yes")⟩, mem_parseWays.2 ⟨ns, t, hel, rfl⟩, ?_⟩
    rcases hcase with ⟨ca, cb, h1, h2, hma, hmb, hwt⟩ |
        ⟨hne, cb, ca, h1, h2, hmb, hma, hwt⟩
    · refine ⟨a, x.dest, mem_consecutivePairs.2 ⟨i, h1, h2⟩,
        ca, cb, hma, hmb, Or.inl ⟨rfl, ?_⟩⟩
      rw [← hwt]
    · refine ⟨x.dest, a, mem_consecutivePairs.2 ⟨i, h1, h2⟩,
        cb, ca, hmb, hma, Or.inr ⟨decide_eq_false hne, rfl, ?_⟩⟩
      rw [← hwt]

theorem wf_addSegment {hav : Coordinate → Coordinate → ℚ}
    {nodes : List (ℤ × Coordinate)} {ow : Bool} {g : List (ℤ × List EdgeTo)}
    {p q : ℤ} (hw : WFGraph nodes g) :
    WFGraph nodes (addSegment hav nodes ow g p q) := by
  cases hp : mapGet nodes p with
  | none =>
      have hg : addSegment hav nodes ow g p q = g := by
        unfold addSegment
        rw [hp]
      rwa [hg]
  | some cp =>
      cases hq : mapGet nodes q with
      | none =>
          have hg : addSegment hav nodes ow g p q = g := by
            unfold addSegment
            rw [hp, hq]
          rwa [hg]
      | some cq =>
          cases ow with
          | true =>
              have hstep : addSegment hav nodes true g p q
                  = mapSet g p ((mapGet g p).getD [] ++ [⟨q, hav cp cq⟩]) := by
                unfold addSegment
                rw [hp, hq]
                rfl
              rw [hstep]
              exact wf_appendEdge hw
                (show (mapGet nodes p).isSome by rw [hp]; rfl)
                (show (mapGet nodes q).isSome by rw [hq]; rfl)
          | false =>
              have hstep : addSegment hav nodes false g p q
                  = mapSet (mapSet g p ((mapGet g p).getD [] ++ [⟨q, hav cp cq⟩])) q
                      ((mapGet (mapSet g p ((mapGet g p).getD []
                          ++ [⟨q, hav cp cq⟩])) q).getD [] ++ [⟨p, hav cp cq⟩]) := by
                unfold addSegment
                rw [hp, hq]
                rfl
              rw [hstep]
              refine wf_appendEdge (wf_appendEdge hw ?_ ?_) ?_ ?_
              · show (mapGet nodes p).isSome
                rw [hp]; rfl
              · show (mapGet nodes q).isSome
                rw [hq]; rfl
              · show (mapGet nodes q).isSome
                rw [hq]; rfl
              · show (mapGet nodes p).isSome
                rw [hp]; rfl

theorem buildGraph_wf (hav : Coordinate → Coordinate → ℚ)
    (elements : List OsmElement) :
    WFGraph (parseNodes elements) (buildGraphData hav elements).graph := by
  have hb : (buildGraphData hav elements).graph
      = (parseWays elements).foldl (addWayEdges hav (parseNodes elements)) [] := rfl
  rw [hb]
  refine foldl_preserve ?_ _ _ ?_
  · intro g w hwf
    unfold addWayEdges
    exact foldl_preserve (fun g' pq h => wf_addSegment h) _ _ hwf
  · intro k es h
    simp at h

/-- C6: every graph produced by construction is well-formed — every stored
bucket `(k, es)` of the adjacency structure is nonempty (a node with zero
outgoing edges is simply absent as a key), and both the bucket's key and
every edge's target id are present in the node-coordinate table. -/
theorem buildGraph_wellFormed (hav : Coordinate → Coordinate → ℚ)
    (elements : List OsmElement) :
    ∀ k es, (k, es) ∈ (buildGraphData hav elements).graph →
      es ≠ [] ∧ (mapGet (buildGraphData hav elements).nodes k).isSome
        ∧ ∀ e ∈ es, (mapGet (buildGraphData hav elements).nodes e.dest).isSome :=
  fun k es h => buildGraph_wf hav elements k es h

/-- C6 witness: the two-node fixture's bucket for node 1 is nonempty and
both endpoints of its single edge resolve in the node table. -/
theorem buildGraph_wellFormed_witness :
    ([⟨2, 0⟩] : List EdgeTo) ≠ [] ∧
      (mapGet (buildGraphData havZero wfElems).nodes 1).isSome
        ∧ ∀ e ∈ ([⟨2, 0⟩] : List EdgeTo),
            (mapGet (buildGraphData havZero wfElems).nodes e.dest).isSome :=
  buildGraph_wellFormed havZero wfElems 1 [⟨2, 0⟩] (by decide)

theorem length_hswap (l : List HeapEntry) (i j : ℕ) :
    (hswap l i j).length = l.length := by
  simp [hswap]

theorem hget_set_self {l : List HeapEntry} {i : ℕ} (h : i < l.length)
    (a : HeapEntry) : hget (l.set i a) i = a := by
  unfold hget
  rw [List.getD_eq_getElem _ _ (by simpa using h), List.getElem_set_self]

theorem hget_set_ne {l : List HeapEntry} {i j : ℕ} (h : i ≠ j) (a : HeapEntry) :
    hget (l.set i a) j = hget l j := by
  unfold hget
  by_cases hj : j < l.length
  · rw [List.getD_eq_getElem _ _ (by simpa using hj), List.getD_eq_getElem _ _ hj,
      List.getElem_set_ne h]
  · rw [List.getD_eq_default _ _ (by simpa using Nat.le_of_not_lt hj),
      List.getD_eq_default _ _ (Nat.le_of_not_lt hj)]

theorem hget_hswap {l : List HeapEntry} {i j : ℕ} (hi : i < l.length)
    (hj : j < l.length) (k : ℕ) :
    hget (hswap l i j) k
      = if k = j then hget l i else if k = i then hget l j else hget l k := by
  unfold hswap
  by_cases hkj : k = j
  · subst hkj
    rw [hget_set_self (by simpa using hj)]
    simp
  · rw [hget_set_ne (fun hh => hkj hh.symm)]
    by_cases hki : k = i
    · subst hki
      rw [hget_set_self hi]
      simp [hkj]
    · rw [hget_set_ne (fun hh => hki hh.symm)]
      simp [hkj, hki]

theorem hget_mem {l : List HeapEntry} {k : ℕ} (h : k < l.length) : hget l k ∈ l := by
  unfold hget
  rw [List.getD_eq_getElem _ _ h]
  exact List.getElem_mem h

theorem mem_hswap {l : List HeapEntry} {i j : ℕ} (hi : i < l.length)
    (hj : j < l.length) {x : HeapEntry} (h : x ∈ hswap l i j) : x ∈ l := by
  unfold hswap at h
  rcases List.mem_or_eq_of_mem_set h with h1 | rfl
  · rcases List.mem_or_eq_of_mem_set h1 with h2 | rfl
    · exact h2
    · exact hget_mem hj
  · exact hget_mem hi

theorem hget_append_left {l m : List HeapEntry} {k : ℕ} (h : k < l.length) :
    hget (l ++ m) k = hget l k := by
  unfold hget
  exact List.getD_append l m _ k h

theorem hget_append_last (l : List HeapEntry) (e : HeapEntry) :
    hget (l ++ [e]) l.length = e := by
  unfold hget
  rw [List.getD_eq_getElem _ _ (by simp)]
  simp

theorem hget_dropLast {l : List HeapEntry} {k : ℕ} (h : k < l.length - 1) :
    hget l.dropLast k = hget l k := by
  unfold hget
  rw [List.getD_eq_getElem _ _ (by simpa [List.length_dropLast] using h),
    List.getD_eq_getElem _ _ (by omega)]
  exact List.getElem_dropLast l k (by simpa [List.length_dropLast] using h)

theorem hget_of_mem {l : List HeapEntry} {y : HeapEntry} (h : y ∈ l) :
    ∃ k, k < l.length ∧ hget l k = y := by
  obtain ⟨k, hk, hy⟩ := List.mem_iff_getElem.1 h
  refine ⟨k, hk, ?_⟩
  unfold hget
  rw [List.getD_eq_getElem _ _ hk, hy]

theorem length_bubbleUp : ∀ (i : ℕ) (l : List HeapEntry),
    (bubbleUp l i).length = l.length := by
  intro i
  induction i using Nat.strong_induction_on with
  | _ i ih =>
    intro l
    cases i with
    | zero => rw [bubbleUp]
    | succ n =>
        rw [bubbleUp]
        split
        · rfl
        · rw [ih (n / 2) (by omega), length_hswap]

theorem mem_bubbleUp : ∀ (i : ℕ) (l : List HeapEntry), i < l.length →
    ∀ {x : HeapEntry}, x ∈ bubbleUp l i → x ∈ l := by
  intro i
  induction i using Nat.strong_induction_on with
  | _ i ih =>
    intro l hi x
    cases i with
    | zero => rw [bubbleUp]; exact id
    | succ n =>
        rw [bubbleUp]
        split
        · exact id
        · intro hx
          exact mem_hswap hi (by omega)
            (ih (n / 2) (by omega) _ (by rw [length_hswap]; omega) hx)

theorem bubbleUp_isMinHeap : ∀ (i : ℕ) (l : List HeapEntry), i < l.length →
    HeapExceptUp l i → IsMinHeap (bubbleUp l i) := by
  intro i
  induction i using Nat.strong_induction_on with
  | _ i ih =>
    intro l hi hinv
    cases i with
    | zero =>
        rw [bubbleUp]
        intro j hj0 hjn
        exact hinv.1 j hj0 hjn (by omega)
    | succ n =>
        rw [bubbleUp]
        split
        · rename_i hcond
          intro j hj0 hjn
          by_cases hj : j = n + 1
          · subst hj
            exact hcond
          · exact hinv.1 j hj0 hjn hj
        · rename_i hcond
          have hlt : (hget l (n + 1)).f < (hget l (n / 2)).f := lt_of_not_ge hcond
          have hp : n / 2 < l.length := by omega
          refine ih (n / 2) (by omega) _ (by rw [length_hswap]; omega) ?_
          have hsw : ∀ k, hget (hswap l (n + 1) (n / 2)) k
              = if k = n / 2 then hget l (n + 1)
                else if k = n + 1 then hget l (n / 2) else hget l k :=
            hget_hswap hi hp
          constructor
          · intro j hj0 hjn hjP
            rw [length_hswap] at hjn
            by_cases hjC : j = n + 1
            · subst hjC
              have hpar : (n + 1 - 1) / 2 = n / 2 := rfl
              have hL : hget (hswap l (n + 1) (n / 2)) (n / 2) = hget l (n + 1) := by
                rw [hsw]
                simp
              have hR : hget (hswap l (n + 1) (n / 2)) (n + 1) = hget l (n / 2) := by
                rw [hsw, if_neg hjP]
                simp
              rw [hpar, hL, hR]
              exact hlt.le
            · rw [hsw j, if_neg hjP, if_neg hjC]
              by_cases hpj : (j - 1) / 2 = n / 2
              · rw [hsw, if_pos hpj]
                have hold : (hget l ((j - 1) / 2)).f ≤ (hget l j).f :=
                  hinv.1 j hj0 hjn hjC
                rw [hpj] at hold
                exact le_trans hlt.le hold
              · rw [hsw, if_neg hpj]
                by_cases hpc : (j - 1) / 2 = n + 1
                · rw [if_pos hpc]
                  exact hinv.2 j hjn hpc (by omega)
                · rw [if_neg hpc]
                  exact hinv.1 j hj0 hjn hjC
          · intro j hjn hpj hP0
            rw [length_hswap] at hjn
            have hgp1 : (n / 2 - 1) / 2 ≠ n / 2 := by omega
            have hgp2 : (n / 2 - 1) / 2 ≠ n + 1 := by omega
            rw [hsw ((n / 2 - 1) / 2), if_neg hgp1, if_neg hgp2]
            by_cases hjC : j = n + 1
            · subst hjC
              rw [hsw, if_neg (by omega : (n + 1 : ℕ) ≠ n / 2), if_pos rfl]
              exact hinv.1 (n / 2) hP0 hp (by omega)
            · have hjP : j ≠ n / 2 := by omega
              rw [hsw, if_neg hjP, if_neg hjC]
              have h1 : (hget l ((n / 2 - 1) / 2)).f ≤ (hget l (n / 2)).f :=
                hinv.1 (n / 2) hP0 hp (by omega)
              have h2 : (hget l ((j - 1) / 2)).f ≤ (hget l j).f :=
                hinv.1 j (by omega) hjn hjC
              rw [hpj] at h2
              exact le_trans h1 h2

theorem smallestChild_cases (l : List HeapEntry) (i : ℕ) :
    smallestChild l i = i ∨
      ((smallestChild l i = 2 * i + 1 ∨ smallestChild l i = 2 * i + 2) ∧
        smallestChild l i < l.length ∧
        (hget l (smallestChild l i)).f < (hget l i).f ∧
        ∀ j, j < l.length → (j = 2 * i + 1 ∨ j = 2 * i + 2) →
          j ≠ smallestChild l i → (hget l (smallestChild l i)).f ≤ (hget l j).f) := by
  by_cases h1 : 2 * i + 1 < l.length ∧ (hget l (2 * i + 1)).f < (hget l i).f
  · by_cases h2 : 2 * i + 2 < l.length
        ∧ (hget l (2 * i + 2)).f < (hget l (2 * i + 1)).f
    · have hval : smallestChild l i = 2 * i + 2 := by
        unfold smallestChild
        simp only [if_pos h1, if_pos h2]
      rw [hval]
      refine Or.inr ⟨Or.inr rfl, h2.1, lt_trans h2.2 h1.2, ?_⟩
      intro j hj hj12 hne
      rcases hj12 with rfl | rfl
      · exact h2.2.le
      · exact absurd rfl hne
    · have hval : smallestChild l i = 2 * i + 1 := by
        unfold smallestChild
        simp only [if_pos h1, if_neg h2]
      rw [hval]
      refine Or.inr ⟨Or.inl rfl, h1.1, h1.2, ?_⟩
      intro j hj hj12 hne
      rcases hj12 with rfl | rfl
      · exact absurd rfl hne
      · exact le_of_not_lt (fun hlt => h2 ⟨hj, hlt⟩)
  · by_cases h2 : 2 * i + 2 < l.length ∧ (hget l (2 * i + 2)).f < (hget l i).f
    · have hval : smallestChild l i = 2 * i + 2 := by
        unfold smallestChild
        simp only [if_neg h1, if_pos h2]
      rw [hval]
      refine Or.inr ⟨Or.inr rfl, h2.1, h2.2, ?_⟩
      intro j hj hj12 hne
      rcases hj12 with rfl | rfl
      · exact le_trans h2.2.le (le_of_not_lt (fun hlt => h1 ⟨hj, hlt⟩))
      · exact absurd rfl hne
    · have hval : smallestChild l i = i := by
        unfold smallestChild
        simp only [if_neg h1, if_neg h2]
      exact Or.inl hval

theorem smallestChild_eq_self_bound {l : List HeapEntry} {i : ℕ}
    (h : smallestChild l i = i) :
    ∀ j, j < l.length → (j = 2 * i + 1 ∨ j = 2 * i + 2) →
      (hget l i).f ≤ (hget l j).f := by
  intro j hj hj12
  by_cases h1 : 2 * i + 1 < l.length ∧ (hget l (2 * i + 1)).f < (hget l i).f
  · exfalso
    by_cases h2 : 2 * i + 2 < l.length
        ∧ (hget l (2 * i + 2)).f < (hget l (2 * i + 1)).f
    · have hval : smallestChild l i = 2 * i + 2 := by
        unfold smallestChild
        simp only [if_pos h1, if_pos h2]
      rw [h] at hval
      omega
    · have hval : smallestChild l i = 2 * i + 1 := by
        unfold smallestChild
        simp only [if_pos h1, if_neg h2]
      rw [h] at hval
      omega
  · by_cases h2 : 2 * i + 2 < l.length ∧ (hget l (2 * i + 2)).f < (hget l i).f
    · exfalso
      have hval : smallestChild l i = 2 * i + 2 := by
        unfold smallestChild
        simp only [if_neg h1, if_pos h2]
      rw [h] at hval
      omega
    · rcases hj12 with rfl | rfl
      · exact le_of_not_lt (fun hlt => h1 ⟨hj, hlt⟩)
      · exact le_of_not_lt (fun hlt => h2 ⟨hj, hlt⟩)

theorem length_sinkDown : ∀ (l : List HeapEntry) (i : ℕ),
    (sinkDown l i).length = l.length := by
  intro l i
  induction l, i using sinkDown.induct with
  | case1 l i h =>
      rw [sinkDown, dif_pos h]
  | case2 l i h ih =>
      rw [sinkDown, dif_neg h, ih, length_hswap]

theorem mem_sinkDown : ∀ (l : List HeapEntry) (i : ℕ) {x : HeapEntry},
    x ∈ sinkDown l i → x ∈ l := by
  intro l i
  induction l, i using sinkDown.induct with
  | case1 l i h =>
      rw [sinkDown, dif_pos h]
      exact fun hx => hx
  | case2 l i h ih =>
      intro x hx
      rw [sinkDown, dif_neg h] at hx
      rcases smallestChild_cases l i with heq | ⟨h12, hlen, _, _⟩
      · exact absurd heq h
      · exact mem_hswap (by omega) hlen (ih hx)

theorem sinkDown_isMinHeap : ∀ (l : List HeapEntry) (i : ℕ),
    HeapExceptDown l i → IsMinHeap (sinkDown l i) := by
  intro l i
  induction l, i using sinkDown.induct with
  | case1 l i h =>
      intro hinv
      rw [sinkDown, dif_pos h]
      intro j hj0 hjn
      by_cases hpi : (j - 1) / 2 = i
      · rw [hpi]
        exact smallestChild_eq_self_bound h j hjn (by omega)
      · exact hinv.1 j hj0 hjn hpi
  | case2 l i h ih =>
      intro hinv
      rw [sinkDown, dif_neg h]
      rcases smallestChild_cases l i with heq | ⟨h12, hclen, hclt, hcmin⟩
      · exact absurd heq h
      · have hic : i < smallestChild l i := by omega
        have hilen : i < l.length := lt_trans hic hclen
        have hparc : (smallestChild l i - 1) / 2 = i := by omega
        have hsw : ∀ k, hget (hswap l i (smallestChild l i)) k
            = if k = smallestChild l i then hget l i
              else if k = i then hget l (smallestChild l i) else hget l k :=
          hget_hswap hilen hclen
        have hinec : ¬ i = smallestChild l i := fun hh => h hh.symm
        refine ih ⟨?_, ?_⟩
        · intro j hj0 hjn hpj
          rw [length_hswap] at hjn
          by_cases hjc : j = smallestChild l i
          · subst hjc
            rw [hparc, hsw, hsw, if_neg hinec, if_pos rfl, if_pos rfl]
            exact hclt.le
          · by_cases hji : j = i
            · have hj0' : 0 < i := hji ▸ hj0
              have hgp1 : (i - 1) / 2 ≠ smallestChild l i := by omega
              have hgp2 : (i - 1) / 2 ≠ i := by omega
              rw [hji, hsw, hsw, if_neg hgp1, if_neg hgp2, if_neg hinec, if_pos rfl]
              exact hinv.2 (smallestChild l i) hclen hparc hj0'
            · by_cases hpi : (j - 1) / 2 = i
              · rw [hsw, hsw, if_neg hpj, if_pos hpi, if_neg hjc, if_neg hji]
                exact hcmin j hjn (by omega) hjc
              · rw [hsw, hsw, if_neg hpj, if_neg hpi, if_neg hjc, if_neg hji]
                exact hinv.1 j hj0 hjn hpi
        · intro j hjn hpj hc0
          rw [length_hswap] at hjn
          have hji : j ≠ i := by omega
          have hjc : j ≠ smallestChild l i := by omega
          rw [hparc, hsw, hsw, if_neg hinec, if_pos rfl, if_neg hjc, if_neg hji]
          have hbase := hinv.1 j (by omega) hjn
            (by rw [hpj]; exact fun hh => h hh)
          rw [hpj] at hbase
          exact hbase

theorem heapPush_isMinHeap {l : List HeapEntry} (h : IsMinHeap l) (id : ℤ) (f : ℚ) :
    IsMinHeap (heapPush l id f) := by
  unfold heapPush
  refine bubbleUp_isMinHeap l.length (l ++ [⟨id, f⟩]) (by simp) ⟨?_, ?_⟩
  · intro j hj0 hjn hne
    rw [List.length_append] at hjn
    simp only [List.length_singleton] at hjn
    have hjl : j < l.length := by omega
    rw [hget_append_left hjl, hget_append_left (by omega)]
    exact h j hj0 hjl
  · intro j hjn hpj hpos
    rw [List.length_append] at hjn
    simp only [List.length_singleton] at hjn
    omega

theorem root_min {l : List HeapEntry} (h : IsMinHeap l) :
    ∀ k, k < l.length → (hget l 0).f ≤ (hget l k).f := by
  intro k
  induction k using Nat.strong_induction_on with
  | _ k ih =>
    intro hk
    cases k with
    | zero => exact le_refl _
    | succ n =>
        have hpar := h (n + 1) (by omega) hk
        have hle := ih ((n + 1 - 1) / 2) (by omega) (by omega)
        exact le_trans hle hpar

theorem heapPop_nil : heapPop [] = (none, []) := rfl

theorem heapPop_cons (a : HeapEntry) (t : List HeapEntry) :
    heapPop (a :: t)
      = if 0 < (a :: t).dropLast.length
        then (some (hget (a :: t) 0),
          sinkDown ((a :: t).dropLast.set 0
            (hget (a :: t) ((a :: t).length - 1))) 0)
        else (some (hget (a :: t) 0), (a :: t).dropLast) := by
  unfold heapPop
  rfl

theorem heapPop_some_inv {l : List HeapEntry} {x : HeapEntry} {l' : List HeapEntry}
    (hpop : heapPop l = (some x, l')) :
    l ≠ [] ∧ x = hget l 0 ∧ l'.length = l.length - 1 ∧
      (∀ y ∈ l', y ∈ l) ∧ (IsMinHeap l → IsMinHeap l') := by
  cases l with
  | nil => simp [heapPop_nil] at hpop
  | cons a t =>
      rw [heapPop_cons] at hpop
      have hlast : (a :: t).length - 1 < (a :: t).length := by simp
      by_cases hlen : 0 < (a :: t).dropLast.length
      · rw [if_pos hlen, Prod.mk.injEq] at hpop
        obtain ⟨h1, h2⟩ := hpop
        have hx : x = hget (a :: t) 0 := (Option.some.inj h1).symm
        subst h2
        refine ⟨List.cons_ne_nil a t, hx, ?_, ?_, ?_⟩
        · rw [length_sinkDown, List.length_set, List.length_dropLast]
        · intro y hy
          rcases List.mem_or_eq_of_mem_set (mem_sinkDown _ _ hy) with hmem | rfl
          · exact List.dropLast_subset _ hmem
          · exact hget_mem hlast
        · intro hheap
          refine sinkDown_isMinHeap _ 0 ⟨?_, ?_⟩
          · intro j hj0 hjn hpj
            rw [List.length_set, List.length_dropLast] at hjn
            have hjd : j < (a :: t).length - 1 := hjn
            have hpd : (j - 1) / 2 < (a :: t).length - 1 := by omega
            rw [hget_set_ne (by omega : (0 : ℕ) ≠ j), hget_dropLast hjd,
              hget_set_ne (fun hh => hpj hh.symm), hget_dropLast hpd]
            exact hheap j hj0 (by omega)
          · intro j hjn hpj hpos
            omega
      · rw [if_neg hlen, Prod.mk.injEq] at hpop
        obtain ⟨h1, h2⟩ := hpop
        have hx : x = hget (a :: t) 0 := (Option.some.inj h1).symm
        subst h2
        refine ⟨List.cons_ne_nil a t, hx, by rw [List.length_dropLast], ?_, ?_⟩
        · intro y hy
          exact List.dropLast_subset _ hy
        · intro _
          intro j hj0 hjn
          omega

theorem mem_popAllFuel : ∀ (fuel : ℕ) (l : List HeapEntry) {y : HeapEntry},
    y ∈ popAllFuel fuel l → y ∈ l := by
  intro fuel
  induction fuel with
  | zero =>
      intro l y hy
      simp [popAllFuel] at hy
  | succ n ih =>
      intro l y hy
      cases hpop : heapPop l with
      | mk fst snd =>
          cases fst with
          | none =>
              rw [popAllFuel, hpop] at hy
              simp at hy
          | some x =>
              have heq : popAllFuel (n + 1) l = x :: popAllFuel n snd := by
                rw [popAllFuel, hpop]
              rw [heq] at hy
              obtain ⟨hne, hx, _, hmem, _⟩ := heapPop_some_inv hpop
              rcases List.mem_cons.1 hy with rfl | hy'
              · rw [hx]
                exact hget_mem (List.length_pos.2 hne)
              · exact hmem y (ih snd hy')

theorem popAllFuel_sorted : ∀ (fuel : ℕ) (l : List HeapEntry),
    IsMinHeap l → List.Sorted (· ≤ ·) ((popAllFuel fuel l).map HeapEntry.f) := by
  intro fuel
  induction fuel with
  | zero =>
      intro l _
      simp [popAllFuel]
  | succ n ih =>
      intro l h
      cases hpop : heapPop l with
      | mk fst snd =>
          cases fst with
          | none =>
              have heq : popAllFuel (n + 1) l = [] := by rw [popAllFuel, hpop]
              rw [heq]
              simp
          | some x =>
              have heq : popAllFuel (n + 1) l = x :: popAllFuel n snd := by
                rw [popAllFuel, hpop]
              rw [heq, List.map_cons, List.sorted_cons]
              obtain ⟨hne, hx, _, hmem, hmh⟩ := heapPop_some_inv hpop
              constructor
              · intro b hb
                obtain ⟨y, hy, rfl⟩ := List.mem_map.1 hb
                have hyl : y ∈ l := hmem y (mem_popAllFuel n snd hy)
                obtain ⟨k, hk, hky⟩ := hget_of_mem hyl
                rw [hx, ← hky]
                exact root_min h k hk
              · exact ih snd (hmh h)

/-- C7: popping the empty heap signals empty (`none`) rather than raising,
and draining the heap after any sequence of pushes yields the priorities
in non-decreasing order. -/
theorem heap_popAll_sorted (ops : List (ℤ × ℚ)) :
    heapPop [] = (none, []) ∧
      List.Sorted (· ≤ ·) ((popAll (pushAll ops)).map HeapEntry.f) := by
  refine ⟨rfl, ?_⟩
  unfold popAll
  refine popAllFuel_sorted _ _ ?_
  unfold pushAll
  refine @foldl_preserve _ _ IsMinHeap (fun l op => heapPush l op.1 op.2)
    (fun l op h => heapPush_isMinHeap h op.1 op.2) ops [] ?_
  intro j hj0 hjn
  simp at hjn

theorem wfCompute_eval :
    computeOnGraph havZero wfGraph origin origin 1 = some (some [(0, 0)]) := by
  unfold computeOnGraph
  rw [show nearestScan havZero wfGraph.nodes wfGraph.graph origin origin
      = (some (1, 0), some (1, 0)) from rfl]
  simp only [heapPush_nil]
  rfl

theorem localRun_eval :
    fetchDijkstraRoute havZero havZero wfProvider [] origin origin 1
      = .ok (some (some wfRouteW),
          mapSet [] (bboxKey (routeBBox origin origin)) wfGraph, true) := by
  unfold fetchDijkstraRoute computeDijkstraRoute
  rw [show fetchRoadNetwork havZero wfProvider [] origin origin
      = .ok (wfGraph, mapSet [] (bboxKey (routeBBox origin origin)) wfGraph, true)
      from rfl]
  simp only [wfCompute_eval]
  have hsum : sumPairwise havZero [((0 : ℚ), (0 : ℚ))] = 0 := rfl
  have hdur : (0 : ℚ) / 40000 * 3600 = 0 := by norm_num
  simp only [hsum, hdur]
  rfl

/-- C9: every `RouteData` produced by the local-algorithm path reports as
its distance exactly the pairwise haversine sum over the consecutive
coordinate pairs of its own geometry. -/
theorem dijkstra_distance_roundTrip (hav fastD : Coordinate → Coordinate → ℚ)
    (provider : BBox → Except Unit (List OsmElement)) (cache : Cache)
    (start stop : Coordinate) (fuel : ℕ) (r : RouteData) (c : Cache) (b : Bool)
    (h : fetchDijkstraRoute hav fastD provider cache start stop fuel
      = .ok (some (some r), c, b)) :
    r.distance = sumPairwise hav r.geometry := by
  unfold fetchDijkstraRoute at h
  cases hcd : computeDijkstraRoute hav fastD provider cache start stop fuel with
  | error e =>
      rw [hcd] at h
      exact absurd h (by simp)
  | ok v =>
      obtain ⟨og, c', b'⟩ := v
      rw [hcd] at h
      cases og with
      | none => simp at h
      | some o =>
          cases o with
          | none => simp at h
          | some geometry =>
              simp only [Except.ok.injEq, Prod.mk.injEq, Option.some.injEq] at h
              obtain ⟨hr, -, -⟩ := h
              rw [← hr]

/-- C9 witness: the concrete single-node local route at the origin. -/
theorem dijkstra_distance_roundTrip_witness :
    wfRouteW.distance = sumPairwise havZero wfRouteW.geometry :=
  dijkstra_distance_roundTrip havZero havZero wfProvider [] origin origin 1
    wfRouteW (mapSet [] (bboxKey (routeBBox origin origin)) wfGraph) true
    localRun_eval

theorem fetchOSRMRoute_some_spec {resp : Except Unit OsrmResponse} {r : RouteData}
    (h : fetchOSRMRoute resp = .ok (some r)) :
    ∃ data route rest leg legs, resp = .ok data ∧ data.routes = route :: rest
      ∧ route.legs = leg :: legs
      ∧ r = ⟨route.coordinates.map (fun c => (c.2, c.1)), route.distance,
          route.duration,
          leg.steps.map (fun s => ⟨stepInstruction s, s.distance, s.duration⟩),
          .osrm⟩ := by
  unfold fetchOSRMRoute at h
  cases resp with
  | error e => simp at h
  | ok data =>
      dsimp only at h
      by_cases hcode : data.code ≠ "Ok" ∨ data.routes = []
      · rw [if_pos hcode] at h
        simp at h
      · rw [if_neg hcode] at h
        cases hroutes : data.routes with
        | nil => rw [hroutes] at h; simp at h
        | cons route rest =>
            rw [hroutes] at h
            dsimp only at h
            cases hlegs : route.legs with
            | nil => rw [hlegs] at h; simp at h
            | cons leg legs =>
                rw [hlegs] at h
                dsimp only at h
                simp only [Except.ok.injEq, Option.some.injEq] at h
                exact ⟨data, route, rest, leg, legs, rfl, hroutes, hlegs, h.symm⟩

theorem osrmOutcome_eq_some {resp : Except Unit OsrmResponse} {r : RouteData}
    (h : osrmOutcome resp = some r) : fetchOSRMRoute resp = .ok (some r) := by
  unfold osrmOutcome at h
  cases hr : fetchOSRMRoute resp with
  | error e => rw [hr] at h; simp at h
  | ok o =>
      rw [hr] at h
      dsimp only at h
      rw [h]

theorem osrmOutcome_tag {resp : Except Unit OsrmResponse} {r : RouteData}
    (h : osrmOutcome resp = some r) : r.algorithm = .osrm := by
  obtain ⟨_, _, _, _, _, _, _, _, hr⟩ := fetchOSRMRoute_some_spec (osrmOutcome_eq_some h)
  rw [hr]

theorem computeOnGraph_some_ne_nil {fastD : Coordinate → Coordinate → ℚ}
    {gd : GraphData} {start stop : Coordinate} {fuel : ℕ} {g : List (ℚ × ℚ)}
    (h : computeOnGraph fastD gd start stop fuel = some (some g)) : g ≠ [] := by
  unfold computeOnGraph at h
  split at h
  · simp at h
  · simp at h
  · dsimp only at h
    split at h
    · simp at h
    · split at h
      · simp at h
      · split at h
        · simp at h
        · simp only [Option.some.injEq] at h
          rw [← h]
          simp

theorem computeDijkstraRoute_some_ne_nil {hav fastD : Coordinate → Coordinate → ℚ}
    {provider : BBox → Except Unit (List OsmElement)} {cache : Cache}
    {start stop : Coordinate} {fuel : ℕ} {g : List (ℚ × ℚ)} {c : Cache} {b : Bool}
    (h : computeDijkstraRoute hav fastD provider cache start stop fuel
      = .ok (some (some g), c, b)) : g ≠ [] := by
  unfold computeDijkstraRoute at h
  cases hn : fetchRoadNetwork hav provider cache start stop with
  | error e => rw [hn] at h; simp at h
  | ok v =>
      obtain ⟨gd, c', b'⟩ := v
      rw [hn] at h
      simp only [Except.ok.injEq, Prod.mk.injEq] at h
      exact computeOnGraph_some_ne_nil h.1

theorem fetchDijkstraRoute_some_spec {hav fastD : Coordinate → Coordinate → ℚ}
    {provider : BBox → Except Unit (List OsmElement)} {cache : Cache}
    {start stop : Coordinate} {fuel : ℕ} {r : RouteData} {c : Cache} {b : Bool}
    (h : fetchDijkstraRoute hav fastD provider cache start stop fuel
      = .ok (some (some r), c, b)) :
    r.algorithm = .dijkstra ∧ r.distance = sumPairwise hav r.geometry
      ∧ r.duration = r.distance / 40000 * 3600 ∧ r.geometry ≠ [] := by
  unfold fetchDijkstraRoute at h
  cases hcd : computeDijkstraRoute hav fastD provider cache start stop fuel with
  | error e =>
      rw [hcd] at h
      simp at h
  | ok v =>
      obtain ⟨og, c', b'⟩ := v
      rw [hcd] at h
      cases og with
      | none => simp at h
      | some o =>
          cases o with
          | none => simp at h
          | some geometry =>
              simp only [Except.ok.injEq, Prod.mk.injEq, Option.some.injEq] at h
              obtain ⟨hr, hc, hb⟩ := h
              subst hc
              subst hb
              have hgne : geometry ≠ [] := computeDijkstraRoute_some_ne_nil hcd
              rw [← hr]
              exact ⟨rfl, rfl, rfl, hgne⟩

theorem foldl_add_nonneg (hav : Coordinate → Coordinate → ℚ)
    (hnn : ∀ a b, 0 ≤ hav a b) :
    ∀ (l : List ((ℚ × ℚ) × (ℚ × ℚ))) (d0 : ℚ), 0 ≤ d0 →
      0 ≤ l.foldl (fun d pq => d + hav ⟨pq.1.1, pq.1.2⟩ ⟨pq.2.1, pq.2.2⟩) d0 := by
  intro l
  induction l with
  | nil => intro d0 h; exact h
  | cons p rest ih =>
      intro d0 h
      exact ih _ (add_nonneg h (hnn _ _))

theorem sumPairwise_nonneg (hav : Coordinate → Coordinate → ℚ)
    (hnn : ∀ a b, 0 ≤ hav a b) (geometry : List (ℚ × ℚ)) :
    0 ≤ sumPairwise hav geometry :=
  foldl_add_nonneg hav hnn _ 0 le_rfl

theorem fetchRoute_some_provenance {hav fastD : Coordinate → Coordinate → ℚ}
    {provider : BBox → Except Unit (List OsmElement)}
    {osrmResp : Except Unit OsrmResponse} {cache : Cache}
    {start stop : Coordinate} {fuel : ℕ} {c : Cache} {r : RouteData}
    (h : fetchRoute hav fastD provider osrmResp cache start stop fuel
      = some (c, some r)) :
    (∃ c' b, fetchDijkstraRoute hav fastD provider cache start stop fuel
        = .ok (some (some r), c', b))
      ∨ fetchOSRMRoute osrmResp = .ok (some r) := by
  unfold fetchRoute at h
  by_cases hle : hav start stop ≤ DIJKSTRA_MAX_DISTANCE
  · rw [if_pos hle] at h
    cases hloc : fetchDijkstraRoute hav fastD provider cache start stop fuel with
    | error e =>
        rw [hloc] at h
        simp at h
    | ok v =>
        obtain ⟨og, c', b'⟩ := v
        rw [hloc] at h
        cases og with
        | none => simp at h
        | some o =>
            cases o with
            | some r0 =>
                simp only [Option.some.injEq, Prod.mk.injEq] at h
                obtain ⟨-, hr⟩ := h
                left
                exact ⟨c', b', by rw [hr]⟩
            | none =>
                cases ho : fetchOSRMRoute osrmResp with
                | error e =>
                    rw [ho] at h
                    simp at h
                | ok ro =>
                    rw [ho] at h
                    simp only [Option.some.injEq, Prod.mk.injEq] at h
                    obtain ⟨-, hr⟩ := h
                    right
                    rw [hr]
  · rw [if_neg hle] at h
    cases ho : fetchOSRMRoute osrmResp with
    | error e =>
        rw [ho] at h
        simp at h
    | ok ro =>
        rw [ho] at h
        simp only [Option.some.injEq, Prod.mk.injEq] at h
        obtain ⟨-, hr⟩ := h
        right
        rw [hr]

/-- C2: the hybrid dispatch on the 15 km straight-line threshold.  A
request at or below the threshold whose local search succeeds returns the
local result tagged `dijkstra`; a request above the threshold returns the
remote outcome (cache untouched), any data it carries tagged `osrm`; a
request at or below the threshold whose local search reports no route is
retried via the remote path and tagged `osrm`. -/
theorem fetchRoute_dispatch (hav fastD : Coordinate → Coordinate → ℚ)
    (provider : BBox → Except Unit (List OsmElement))
    (osrmResp : Except Unit OsrmResponse) (cache : Cache)
    (start stop : Coordinate) (fuel : ℕ) :
    (∀ r c b, hav start stop ≤ DIJKSTRA_MAX_DISTANCE →
      fetchDijkstraRoute hav fastD provider cache start stop fuel
        = .ok (some (some r), c, b) →
      fetchRoute hav fastD provider osrmResp cache start stop fuel
          = some (c, some r)
        ∧ r.algorithm = .dijkstra) ∧
    (hav start stop > DIJKSTRA_MAX_DISTANCE →
      fetchRoute hav fastD provider osrmResp cache start stop fuel
          = some (cache, osrmOutcome osrmResp)
        ∧ ∀ r, osrmOutcome osrmResp = some r → r.algorithm = .osrm) ∧
    (∀ c b, hav start stop ≤ DIJKSTRA_MAX_DISTANCE →
      fetchDijkstraRoute hav fastD provider cache start stop fuel
        = .ok (some none, c, b) →
      fetchRoute hav fastD provider osrmResp cache start stop fuel
          = some (c, osrmOutcome osrmResp)
        ∧ ∀ r, osrmOutcome osrmResp = some r → r.algorithm = .osrm) := by
  refine ⟨?_, ?_, ?_⟩
  · intro r c b hle hloc
    refine ⟨?_, (fetchDijkstraRoute_some_spec hloc).1⟩
    unfold fetchRoute
    rw [if_pos hle, hloc]
  · intro hgt
    refine ⟨?_, fun r hr => osrmOutcome_tag hr⟩
    unfold fetchRoute
    rw [if_neg (not_le.2 hgt)]
    unfold osrmOutcome
    cases fetchOSRMRoute osrmResp <;> rfl
  · intro c b hle hloc
    refine ⟨?_, fun r hr => osrmOutcome_tag hr⟩
    unfold fetchRoute
    rw [if_pos hle, hloc]
    unfold osrmOutcome
    cases fetchOSRMRoute osrmResp <;> rfl

/-- C2 witness: a concrete below-threshold request that succeeds locally
is returned as-is and is tagged `dijkstra`. -/
theorem fetchRoute_dispatch_witness :
    fetchRoute havZero havZero wfProvider (.ok osrmRespW) [] origin origin 1
        = some (mapSet [] (bboxKey (routeBBox origin origin)) wfGraph, some wfRouteW)
      ∧ wfRouteW.algorithm = .dijkstra :=
  (fetchRoute_dispatch havZero havZero wfProvider (.ok osrmRespW) [] origin origin 1).1
    wfRouteW (mapSet [] (bboxKey (routeBBox origin origin)) wfGraph) true
    (by norm_num [havZero, DIJKSTRA_MAX_DISTANCE]) localRun_eval

/-- C1 (amended): when the straight-line distance is at or below the
threshold, a local search that returns the no-path signal makes
`fetchRoute` fall back to the remote path, but a local attempt that
*throws* (map-data fetch/build failure) is caught by the surrounding
`try`/`catch` and `fetchRoute` returns `null` without attempting the
remote path; in both cases no exception escapes — the caller receives
either a populated `RouteData` or `null`. -/
theorem fetchRoute_failure_handling (hav fastD : Coordinate → Coordinate → ℚ)
    (provider : BBox → Except Unit (List OsmElement))
    (osrmResp : Except Unit OsrmResponse) (cache : Cache)
    (start stop : Coordinate) (fuel : ℕ) :
    (hav start stop ≤ DIJKSTRA_MAX_DISTANCE →
      fetchDijkstraRoute hav fastD provider cache start stop fuel = .error () →
      fetchRoute hav fastD provider osrmResp cache start stop fuel
        = some (cache, none)) ∧
    (∀ c b, hav start stop ≤ DIJKSTRA_MAX_DISTANCE →
      fetchDijkstraRoute hav fastD provider cache start stop fuel
        = .ok (some none, c, b) →
      fetchRoute hav fastD provider osrmResp cache start stop fuel
        = some (c, osrmOutcome osrmResp)) := by
  constructor
  · intro hle herr
    unfold fetchRoute
    rw [if_pos hle, herr]
  · intro c b hle hloc
    unfold fetchRoute
    rw [if_pos hle, hloc]
    unfold osrmOutcome
    cases fetchOSRMRoute osrmResp <;> rfl

/-- C1 witness: a below-threshold request whose local search reports
no route (here: the fetched network has no ways, so no eligible nodes)
falls back to the remote outcome. -/
theorem fetchRoute_failure_handling_witness :
    fetchRoute havZero havZero nodesOnlyProvider (.ok osrmRespW) [] origin origin 1
      = some (mapSet [] (bboxKey (routeBBox origin origin))
          (buildGraphData havZero [.node 1 0 0]), osrmOutcome (.ok osrmRespW)) :=
  (fetchRoute_failure_handling havZero havZero nodesOnlyProvider (.ok osrmRespW)
      [] origin origin 1).2
    (mapSet [] (bboxKey (routeBBox origin origin)) (buildGraphData havZero [.node 1 0 0]))
    true (by norm_num [havZero, DIJKSTRA_MAX_DISTANCE]) rfl

/-- C1 counterexample to the claim as stated: a below-threshold request
whose map-data fetch throws returns `null` even though the remote path
would succeed — the fallback is not attempted on a thrown local failure. -/
theorem fetchRoute_throw_counterexample :
    fetchRoute havZero havZero failProvider (.ok osrmRespW) [] origin origin 1
        = some ([], none)
      ∧ osrmOutcome (.ok osrmRespW) = some osrmRouteDataW
      ∧ havZero origin origin ≤ DIJKSTRA_MAX_DISTANCE := by
  refine ⟨?_, rfl, by norm_num [havZero, DIJKSTRA_MAX_DISTANCE]⟩
  unfold fetchRoute
  rw [if_pos (show havZero origin origin ≤ DIJKSTRA_MAX_DISTANCE from by
    norm_num [havZero, DIJKSTRA_MAX_DISTANCE])]
  rfl

/-- C8: every `RouteData` handed to the caller — local or remote — has
non-negative distance and duration and a nonempty geometry, provided the
haversine function is non-negative (true of the source's
`haversineDistance`) and the remote provider honors its documented
contract (non-negative distance/duration and nonempty route geometry);
`null` is the only no-route representation. -/
theorem routeData_invariants (hav fastD : Coordinate → Coordinate → ℚ)
    (provider : BBox → Except Unit (List OsmElement))
    (osrmResp : Except Unit OsrmResponse) (cache : Cache)
    (start stop : Coordinate) (fuel : ℕ)
    (hnn : ∀ a b, 0 ≤ hav a b)
    (hresp : ∀ data route rest, osrmResp = .ok data →
      data.routes = route :: rest →
      0 ≤ route.distance ∧ 0 ≤ route.duration ∧ route.coordinates ≠ [])
    {c : Cache} {r : RouteData}
    (h : fetchRoute hav fastD provider osrmResp cache start stop fuel
      = some (c, some r)) :
    0 ≤ r.distance ∧ 0 ≤ r.duration ∧ r.geometry ≠ [] := by
  rcases fetchRoute_some_provenance h with ⟨c', b', hloc⟩ | hosrm
  · obtain ⟨-, hdist, hdur, hne⟩ := fetchDijkstraRoute_some_spec hloc
    have h1 : 0 ≤ r.distance := by
      rw [hdist]
      exact sumPairwise_nonneg hav hnn _
    refine ⟨h1, ?_, hne⟩
    rw [hdur]
    exact mul_nonneg (div_nonneg h1 (by norm_num)) (by norm_num)
  · obtain ⟨data, route, rest, leg, legs, hrespEq, hroutes, hlegs, hr⟩ :=
      fetchOSRMRoute_some_spec hosrm
    obtain ⟨hd, hdu, hco⟩ := hresp data route rest hrespEq hroutes
    rw [hr]
    exact ⟨hd, hdu, by simp [hco]⟩

/-- C8 witness: the concrete local route at the origin. -/
theorem routeData_invariants_witness :
    (0 : ℚ) ≤ wfRouteW.distance ∧ (0 : ℚ) ≤ wfRouteW.duration
      ∧ wfRouteW.geometry ≠ [] :=
  routeData_invariants havZero havZero wfProvider (.ok osrmRespW) [] origin origin 1
    (fun _ _ => le_refl 0)
    (by
      intro data route rest heq hroutes
      obtain rfl : osrmRespW = data := Except.ok.inj heq
      simp only [osrmRespW] at hroutes
      obtain ⟨rfl, -⟩ := List.cons.inj hroutes.symm
      refine ⟨by norm_num [osrmRouteW], by norm_num [osrmRouteW], by simp [osrmRouteW]⟩)
    (by
      unfold fetchRoute
      rw [if_pos (show havZero origin origin ≤ DIJKSTRA_MAX_DISTANCE from by
        norm_num [havZero, DIJKSTRA_MAX_DISTANCE])]
      rw [localRun_eval])

theorem mapGet_nil {κ α : Type} [DecidableEq κ] (k : κ) :
    mapGet ([] : List (κ × α)) k = none := rfl

theorem heapPop_single (e : HeapEntry) : heapPop [e] = (some e, []) := rfl

theorem sumPairwise_single (hav : Coordinate → Coordinate → ℚ) (x : ℚ × ℚ) :
    sumPairwise hav [x] = 0 := rfl

/-- C10: when start and end resolve to the same graph node, the local
search succeeds immediately (the popped root is already the target), the
geometry is exactly that single node's coordinate, and the resulting
`RouteData` reports distance 0 and duration 0 with the one synthetic
step. -/
theorem sameNode_local_route (hav fastD : Coordinate → Coordinate → ℚ)
    (provider : BBox → Except Unit (List OsmElement)) (cache : Cache)
    (start stop : Coordinate) (fuel : ℕ) (gd : GraphData) (sN : ℤ) (sD eD : ℚ)
    (hscan : nearestScan fastD gd.nodes gd.graph start stop
      = (some (sN, sD), some (sN, eD))) :
    computeOnGraph fastD gd start stop (fuel + 1)
        = some (some [(((mapGet gd.nodes sN).getD ⟨0, 0⟩).lat,
            ((mapGet gd.nodes sN).getD ⟨0, 0⟩).lng)])
      ∧ ∀ c b, fetchRoadNetwork hav provider cache start stop = .ok (gd, c, b) →
          fetchDijkstraRoute hav fastD provider cache start stop (fuel + 1)
            = .ok (some (some
                ⟨[(((mapGet gd.nodes sN).getD ⟨0, 0⟩).lat,
                    ((mapGet gd.nodes sN).getD ⟨0, 0⟩).lng)], 0, 0,
                  [⟨"Follow the highlighted shortest path.", 0, 0⟩],
                  .dijkstra⟩), c, b) := by
  have hcomp : computeOnGraph fastD gd start stop (fuel + 1)
      = some (some [(((mapGet gd.nodes sN).getD ⟨0, 0⟩).lat,
          ((mapGet gd.nodes sN).getD ⟨0, 0⟩).lng)]) := by
    unfold computeOnGraph
    rw [hscan]
    dsimp only
    rw [heapPush_nil]
    simp [aLoop, reconLoop, heapPop_single, mapGet_nil]
  refine ⟨hcomp, ?_⟩
  intro c b hnet
  unfold fetchDijkstraRoute computeDijkstraRoute
  rw [hnet]
  dsimp only
  rw [hcomp]
  dsimp only
  rw [sumPairwise_single, show (0 : ℚ) / 40000 * 3600 = 0 from by norm_num]

/-- C10 witness: the concrete origin request on the two-node network,
where both endpoints resolve to node 1. -/
theorem sameNode_local_route_witness :
    computeOnGraph havZero wfGraph origin origin 1 = some (some [((0 : ℚ), (0 : ℚ))])
      ∧ fetchDijkstraRoute havZero havZero wfProvider [] origin origin 1
        = .ok (some (some wfRouteW),
            mapSet [] (bboxKey (routeBBox origin origin)) wfGraph, true) := by
  have h := sameNode_local_route havZero havZero wfProvider [] origin origin 0 wfGraph 1 0 0
    (show nearestScan havZero wfGraph.nodes wfGraph.graph origin origin
      = (some (1, 0), some (1, 0)) from rfl)
  exact ⟨h.1, h.2 (mapSet [] (bboxKey (routeBBox origin origin)) wfGraph) true rfl⟩

theorem updateMin_none (id : ℤ) (d : ℚ) : updateMin none id d = some (id, d) := rfl

theorem updateMin_some (i0 : ℤ) (d0 : ℚ) (id : ℤ) (d : ℚ) :
    updateMin (some (i0, d0)) id d
      = if d < d0 then some (id, d) else some (i0, d0) := rfl

theorem nearestFold_cons (fastD : Coordinate → Coordinate → ℚ) (q : Coordinate)
    (p : ℤ × Coordinate) (l : List (ℤ × Coordinate)) (acc : Option (ℤ × ℚ)) :
    nearestFold fastD q (p :: l) acc
      = nearestFold fastD q l (updateMin acc p.1 (fastD q p.2)) := rfl

theorem eligibleNodes_cons_none {graph : List (ℤ × List EdgeTo)}
    {p : ℤ × Coordinate} {nodes : List (ℤ × Coordinate)}
    (hm : mapGet graph p.1 = none) :
    eligibleNodes graph (p :: nodes) = eligibleNodes graph nodes := by
  simp [eligibleNodes, List.filter_cons, hm]

theorem eligibleNodes_cons_some {graph : List (ℤ × List EdgeTo)}
    {p : ℤ × Coordinate} {nodes : List (ℤ × Coordinate)} {es : List EdgeTo}
    (hm : mapGet graph p.1 = some es) :
    eligibleNodes graph (p :: nodes) = p :: eligibleNodes graph nodes := by
  simp [eligibleNodes, List.filter_cons, hm]

theorem nearestScan_go (fastD : Coordinate → Coordinate → ℚ)
    (graph : List (ℤ × List EdgeTo)) (start stop : Coordinate) :
    ∀ (nodes : List (ℤ × Coordinate)) (acc : Option (ℤ × ℚ) × Option (ℤ × ℚ)),
    List.foldl
      (fun acc p =>
        if (mapGet graph p.1).isNone then acc
        else (updateMin acc.1 p.1 (fastD start p.2),
              updateMin acc.2 p.1 (fastD stop p.2)))
      acc nodes
      = (nearestFold fastD start (eligibleNodes graph nodes) acc.1,
         nearestFold fastD stop (eligibleNodes graph nodes) acc.2)
  | [], acc => rfl
  | p :: ns, acc => by
      show List.foldl _
        (if (mapGet graph p.1).isNone then acc
         else (updateMin acc.1 p.1 (fastD start p.2),
               updateMin acc.2 p.1 (fastD stop p.2))) ns = _
      cases hm : mapGet graph p.1 with
      | none =>
          rw [eligibleNodes_cons_none hm]
          exact nearestScan_go fastD graph start stop ns acc
      | some es =>
          rw [eligibleNodes_cons_some hm, nearestFold_cons, nearestFold_cons]
          exact nearestScan_go fastD graph start stop ns
            (updateMin acc.1 p.1 (fastD start p.2),
              updateMin acc.2 p.1 (fastD stop p.2))

theorem nearestScan_eq (fastD : Coordinate → Coordinate → ℚ)
    (nodes : List (ℤ × Coordinate)) (graph : List (ℤ × List EdgeTo))
    (start stop : Coordinate) :
    nearestScan fastD nodes graph start stop
      = (nearestFold fastD start (eligibleNodes graph nodes) none,
         nearestFold fastD stop (eligibleNodes graph nodes) none) :=
  nearestScan_go fastD graph start stop nodes (none, none)

theorem nearestFold_some (fastD : Coordinate → Coordinate → ℚ) (q : Coordinate) :
    ∀ (l : List (ℤ × Coordinate)) (i0 : ℤ) (d0 : ℚ),
    ∃ i d, nearestFold fastD q l (some (i0, d0)) = some (i, d)
  | [], i0, d0 => ⟨i0, d0, rfl⟩
  | p :: ns, i0, d0 => by
      rw [nearestFold_cons, updateMin_some]
      by_cases hlt : fastD q p.2 < d0
      · rw [if_pos hlt]
        exact nearestFold_some fastD q ns p.1 (fastD q p.2)
      · rw [if_neg hlt]
        exact nearestFold_some fastD q ns i0 d0

theorem nearestFold_spec (fastD : Coordinate → Coordinate → ℚ) (q : Coordinate) :
    ∀ (l : List (ℤ × Coordinate)) (i0 i : ℤ) (d0 d : ℚ),
    nearestFold fastD q l (some (i0, d0)) = some (i, d) →
    (i = i0 ∧ d = d0 ∧ ∀ p ∈ l, ¬ fastD q p.2 < d)
      ∨ (∃ pre c post, l = pre ++ (i, c) :: post ∧ d = fastD q c ∧ d < d0
          ∧ (∀ p ∈ pre, d < fastD q p.2) ∧ (∀ p ∈ post, ¬ fastD q p.2 < d))
  | [], i0, i, d0, d => by
      intro h
      simp only [nearestFold, List.foldl_nil, Option.some.injEq, Prod.mk.injEq] at h
      exact Or.inl ⟨h.1.symm, h.2.symm, by simp⟩
  | p :: ns, i0, i, d0, d => by
      intro h
      rw [nearestFold_cons, updateMin_some] at h
      by_cases hlt : fastD q p.2 < d0
      · rw [if_pos hlt] at h
        rcases nearestFold_spec fastD q ns p.1 i (fastD q p.2) d h with
          ⟨hi, hd, hall⟩ | ⟨pre, c, post, hdec, hd, hdlt, hpre, hpost⟩
        · right
          refine ⟨[], p.2, ns, by rw [hi]; simp, hd, ?_, by simp, hall⟩
          rw [hd]
          exact hlt
        · right
          refine ⟨p :: pre, c, post, by rw [hdec, List.cons_append], hd,
            lt_trans hdlt hlt, ?_, hpost⟩
          intro p' hp'
          rcases List.mem_cons.1 hp' with rfl | hmem
          · exact hdlt
          · exact hpre p' hmem
      · rw [if_neg hlt] at h
        rcases nearestFold_spec fastD q ns i0 i d0 d h with
          ⟨hi, hd, hall⟩ | ⟨pre, c, post, hdec, hd, hdlt, hpre, hpost⟩
        · left
          refine ⟨hi, hd, ?_⟩
          intro p' hp'
          rcases List.mem_cons.1 hp' with rfl | hmem
          · rw [hd]
            exact hlt
          · exact hall p' hmem
        · right
          refine ⟨p :: pre, c, post, by rw [hdec, List.cons_append], hd, hdlt,
            ?_, hpost⟩
          intro p' hp'
          rcases List.mem_cons.1 hp' with rfl | hmem
          · exact lt_of_lt_of_le hdlt (not_lt.1 hlt)
          · exact hpre p' hmem

theorem nearestFold_none_iff (fastD : Coordinate → Coordinate → ℚ) (q : Coordinate)
    (l : List (ℤ × Coordinate)) :
    nearestFold fastD q l none = none ↔ l = [] := by
  cases l with
  | nil => simp [nearestFold]
  | cons p ns =>
      constructor
      · intro h
        rw [nearestFold_cons, updateMin_none] at h
        obtain ⟨i, d, hs⟩ := nearestFold_some fastD q ns p.1 (fastD q p.2)
        rw [hs] at h
        exact absurd h (by simp)
      · intro h
        exact absurd h (by simp)

theorem nearestFold_argmin (fastD : Coordinate → Coordinate → ℚ) (q : Coordinate)
    (l : List (ℤ × Coordinate)) (i : ℤ) (d : ℚ)
    (h : nearestFold fastD q l none = some (i, d)) :
    ∃ pre c post, l = pre ++ (i, c) :: post ∧ d = fastD q c
      ∧ (∀ p ∈ pre, d < fastD q p.2) ∧ (∀ p ∈ post, ¬ fastD q p.2 < d) := by
  cases l with
  | nil => exact absurd h (by simp [nearestFold])
  | cons p ns =>
      rw [nearestFold_cons, updateMin_none] at h
      rcases nearestFold_spec fastD q ns p.1 i (fastD q p.2) d h with
        ⟨hi, hd, hall⟩ | ⟨pre, c, post, hdec, hd, hdlt, hpre, hpost⟩
      · exact ⟨[], p.2, ns, by rw [hi]; simp, hd, by simp, hall⟩
      · refine ⟨p :: pre, c, post, by rw [hdec, List.cons_append], hd, ?_, hpost⟩
        intro p' hp'
        rcases List.mem_cons.1 hp' with rfl | hmem
        · exact hdlt
        · exact hpre p' hmem

/-- C4: nearest-node resolution.  `nearestScan` equals, for each of the two
query points, an `updateMin` fold over exactly the eligible nodes (those
with an adjacency entry — under well-formedness, exactly those with at
least one outgoing edge); a returned node is the arg-min of the planar
approximate distance among the eligible nodes with ties won by the first
encountered; the scan fails exactly when no eligible node exists, in which
case the local search returns the failure signal immediately and the
hybrid router falls back to the remote path. -/
theorem nearest_node_resolution (hav fastD : Coordinate → Coordinate → ℚ)
    (provider : BBox → Except Unit (List OsmElement))
    (osrmResp : Except Unit OsrmResponse) (cache : Cache)
    (start stop : Coordinate) (fuel : ℕ) (gd : GraphData) :
    (nearestScan fastD gd.nodes gd.graph start stop
        = (nearestFold fastD start (eligibleNodes gd.graph gd.nodes) none,
           nearestFold fastD stop (eligibleNodes gd.graph gd.nodes) none))
      ∧ (∀ p, p ∈ eligibleNodes gd.graph gd.nodes
          ↔ p ∈ gd.nodes ∧ (mapGet gd.graph p.1).isSome = true)
      ∧ (WFGraph gd.nodes gd.graph → ∀ id, (mapGet gd.graph id).isSome = true
          ↔ ∃ e es, mapGet gd.graph id = some (e :: es))
      ∧ (∀ q i d, nearestFold fastD q (eligibleNodes gd.graph gd.nodes) none
            = some (i, d) →
          ∃ pre c post, eligibleNodes gd.graph gd.nodes = pre ++ (i, c) :: post
            ∧ d = fastD q c ∧ (∀ p ∈ pre, d < fastD q p.2)
            ∧ (∀ p ∈ post, ¬ fastD q p.2 < d))
      ∧ (∀ q, nearestFold fastD q (eligibleNodes gd.graph gd.nodes) none = none
          ↔ eligibleNodes gd.graph gd.nodes = [])
      ∧ (eligibleNodes gd.graph gd.nodes = [] →
          computeOnGraph fastD gd start stop fuel = some none)
      ∧ (eligibleNodes gd.graph gd.nodes = [] →
          hav start stop ≤ DIJKSTRA_MAX_DISTANCE →
          ∀ c' b, fetchRoadNetwork hav provider cache start stop = .ok (gd, c', b) →
          fetchRoute hav fastD provider osrmResp cache start stop fuel
            = some (c', osrmOutcome osrmResp)) := by
  have hscan := nearestScan_eq fastD gd.nodes gd.graph start stop
  have hempty : eligibleNodes gd.graph gd.nodes = [] →
      computeOnGraph fastD gd start stop fuel = some none := by
    intro he
    unfold computeOnGraph
    rw [hscan, he]
    rfl
  refine ⟨hscan, ?_, ?_, ?_, ?_, hempty, ?_⟩
  · intro p
    simp [eligibleNodes, List.mem_filter]
  · intro hwf id
    constructor
    · intro hs
      obtain ⟨es, hes⟩ := Option.isSome_iff_exists.1 hs
      obtain ⟨hne, -, -⟩ := hwf id es (mapGet_mem hes)
      obtain ⟨e, es', rfl⟩ := List.exists_cons_of_ne_nil hne
      exact ⟨e, es', hes⟩
    · rintro ⟨e, es, hes⟩
      rw [hes]
      rfl
  · intro q i d h
    exact nearestFold_argmin fastD q _ i d h
  · intro q
    exact nearestFold_none_iff fastD q _
  · intro he hle c' b hnet
    have hlocal : fetchDijkstraRoute hav fastD provider cache start stop fuel
        = .ok (some none, c', b) := by
      unfold fetchDijkstraRoute computeDijkstraRoute
      rw [hnet]
      dsimp only
      rw [hempty he]
    unfold fetchRoute
    rw [if_pos hle, hlocal]
    unfold osrmOutcome
    cases fetchOSRMRoute osrmResp <;> rfl

/-- C4 witness: a network with one isolated node has no eligible endpoint;
the local search fails immediately and the router falls back to remote. -/
theorem nearest_node_resolution_witness :
    computeOnGraph havZero (buildGraphData havZero [.node 1 0 0]) origin origin 1
        = some none
      ∧ fetchRoute havZero havZero nodesOnlyProvider (.ok osrmRespW) [] origin origin 1
        = some (mapSet [] (bboxKey (routeBBox origin origin))
            (buildGraphData havZero [.node 1 0 0]), osrmOutcome (.ok osrmRespW)) := by
  have h := nearest_node_resolution havZero havZero nodesOnlyProvider (.ok osrmRespW)
    [] origin origin 1 (buildGraphData havZero [.node 1 0 0])
  exact ⟨h.2.2.2.2.2.1 rfl,
    h.2.2.2.2.2.2 rfl (by norm_num [havZero, DIJKSTRA_MAX_DISTANCE])
      (mapSet [] (bboxKey (routeBBox origin origin)) (buildGraphData havZero [.node 1 0 0]))
      true rfl⟩

end CityRoute
